import Mathlib

/-!
# DragonCoin: a verification development

Shallow embedding of the parts of the DragonCoin sources that the specification
speaks about, followed by the theorems that settle the claims.

* `Spork`  : `src/spork.cpp` (spork defaults, signer threshold, active value)
* `LLMQ`   : `src/llmq/quorums_blockprocessor.cpp` (final commitments in blocks, minable
  and mined commitments)
* `Wallet` : `src/wallet/receive.cpp` (change of a transaction)
* `CoinSelectionTests` : `src/wallet/test/coinselection_tests.cpp` (`EquivalentResult`)

Machine integers are `Int`/`Nat`; conversions between widths are written out.
-/

set_option autoImplicit false

namespace DragonCoin

/-! ## Machine integers -/

/-- Conversion of an integer to the C++ type `int` (32 bit, two's complement). -/
def toInt32 (x : Int) : Int := (x + 2 ^ 31) % 2 ^ 32 - 2 ^ 31

/-- Conversion of an integer to the C++ type `uint32_t`. -/
def toUInt32 (x : Int) : Int := x % 2 ^ 32

/-! ## `src/spork.cpp` -/

namespace Spork

/-- Key identifiers (`CKeyID`, a 160 bit hash) are kept abstract as numbers. -/
abbrev CKeyID := Nat

/-- Record `CSporkDef` of spork.h: `{sporkId, defaultValue, name}`; `defaultValue` is an `int64_t`. -/
structure CSporkDef where
  sporkId : Int
  defaultValue : Int
  name : String
  deriving DecidableEq, Repr

/-- The enumerators of spork.h that `sporkDefs` mentions. The header is not part of the
sources at hand, so their numeric values are parameters of the model. -/
structure SporkIds where
  SPORK_6_NEW_SIGS : Int
  SPORK_9_SUPERBLOCKS_ENABLED : Int
  SPORK_15_DETERMINISTIC_MNS_ENABLED : Int
  SPORK_17_QUORUM_DKG_ENABLED : Int
  SPORK_21_QUORUM_ALL_CONNECTED : Int
  SPORK_TEST : Int
  deriving DecidableEq, Repr

/-- The six enumerators are pairwise different, as the enumerators of one C++ enum
that are used as keys of `sporkDefsById` are. -/
def SporkIds.Distinct (ids : SporkIds) : Prop :=
  [ids.SPORK_6_NEW_SIGS, ids.SPORK_9_SUPERBLOCKS_ENABLED, ids.SPORK_15_DETERMINISTIC_MNS_ENABLED,
   ids.SPORK_17_QUORUM_DKG_ENABLED, ids.SPORK_21_QUORUM_ALL_CONNECTED, ids.SPORK_TEST].Nodup

instance (ids : SporkIds) : Decidable ids.Distinct := by
  unfold SporkIds.Distinct; infer_instance

/-- The global `sporkDefs` (spork.cpp lines 19-26); `4070908800ULL` fits an `int64_t`. -/
def sporkDefs (ids : SporkIds) : List CSporkDef :=
  [ ⟨ids.SPORK_6_NEW_SIGS, 0, "SPORK_6_NEW_SIGS"⟩,
    ⟨ids.SPORK_9_SUPERBLOCKS_ENABLED, 0, "SPORK_9_SUPERBLOCKS_ENABLED"⟩,
    ⟨ids.SPORK_15_DETERMINISTIC_MNS_ENABLED, 0, "SPORK_15_DETERMINISTIC_MNS_ENABLED"⟩,
    ⟨ids.SPORK_17_QUORUM_DKG_ENABLED, 4070908800, "SPORK_17_QUORUM_DKG_ENABLED"⟩,
    ⟨ids.SPORK_21_QUORUM_ALL_CONNECTED, 4070908800, "SPORK_21_QUORUM_ALL_CONNECTED"⟩,
    ⟨ids.SPORK_TEST, 4070908800, "SPORK_TEST"⟩ ]

/-- The call `map.emplace(k, v)` of a C++ map: the entry is added only when the key is new. -/
def emplace {K V : Type} [DecidableEq K] (m : List (K × V)) (k : K) (v : V) : List (K × V) :=
  if m.any (fun p => p.1 = k) then m else m ++ [(k, v)]

/-- The call `map.find(k)` of a C++ map, as an option. -/
def find {K V : Type} [DecidableEq K] (m : List (K × V)) (k : K) : Option V :=
  (m.find? (fun p => p.1 = k)).map Prod.snd

/-- The member `sporkDefsById`, filled by the constructor `CSporkManager::CSporkManager`
(spork.cpp lines 30-36) from `sporkDefs` and never written afterwards. -/
def sporkDefsById (ids : SporkIds) : List (Int × CSporkDef) :=
  (sporkDefs ids).foldl (fun m d => emplace m d.sporkId d) []

/-- The fields of `CSporkMessage` that the code at hand reads. -/
structure CSporkMessage where
  nSporkID : Int
  nValue : Int
  nTimeSigned : Int
  deriving DecidableEq, Repr

/-- State of `CSporkManager`. `mapSporksActive` maps a spork id to the messages by signer,
the inner list being in iteration order; `setSporkPubKeyIDs` is a `std::set`. -/
structure CSporkManager where
  mapSporksActive : List (Int × List (CKeyID × CSporkMessage))
  setSporkPubKeyIDs : Finset CKeyID
  nMinSporkKeys : Int

/-- The loop of `SporkValueIsActive` (spork.cpp lines 46-54): `counts` is `mapValueCounts`,
a missing key counting as 0 as `operator[]` makes it. -/
def SporkValueIsActive.loop (nMinSporkKeys : Int) :
    List (CKeyID × CSporkMessage) → (Int → Int) → Option Int
  | [], _ => none
  | p :: rest, counts =>
    let counts' : Int → Int := fun v => if v = p.2.nValue then counts v + 1 else counts v
    if counts' p.2.nValue ≥ nMinSporkKeys then some p.2.nValue
    else SporkValueIsActive.loop nMinSporkKeys rest counts'

/-- `CSporkManager::SporkValueIsActive` (spork.cpp lines 38-57): `some v` stands for
`true` with `nActiveValueRet = v`, `none` for `false`. -/
def SporkValueIsActive (s : CSporkManager) (nSporkID : Int) : Option Int :=
  match find s.mapSporksActive nSporkID with
  | none => none
  | some signers => SporkValueIsActive.loop s.nMinSporkKeys signers (fun _ => 0)

/-- `CSporkManager::GetSporkValue` (spork.cpp lines 214-230). -/
def GetSporkValue (ids : SporkIds) (s : CSporkManager) (nSporkID : Int) : Int :=
  match SporkValueIsActive s nSporkID with
  | some nSporkValue => nSporkValue
  | none =>
    match find (sporkDefsById ids) nSporkID with
    | some d => d.defaultValue
    | none => -1

/-- `CSporkManager::IsSporkActive` (spork.cpp lines 208-212); `adjustedTime` is what
`GetAdjustedTime()` returns at the call. -/
def IsSporkActive (ids : SporkIds) (s : CSporkManager) (nSporkID : Int) (adjustedTime : Int) : Bool :=
  decide (GetSporkValue ids s nSporkID < adjustedTime)

/-- `CSporkManager::SetMinSporkKeys` (spork.cpp lines 284-293): the returned flag and the
manager afterwards. `maxKeysNumber` is the set size converted to `int`; `/` on `int`
truncates. -/
def SetMinSporkKeys (s : CSporkManager) (minSporkKeys : Int) : Bool × CSporkManager :=
  let maxKeysNumber : Int := toInt32 (s.setSporkPubKeyIDs.card : Int)
  if minSporkKeys ≤ Int.tdiv maxKeysNumber 2 ∨ minSporkKeys > maxKeysNumber then
    (false, s)
  else
    (true, { s with nMinSporkKeys := minSporkKeys })

end Spork


/-! ## `src/llmq/quorums_blockprocessor.cpp` -/

namespace LLMQ

/-- A 256 bit hash as a number; `uint256()` is 0 and `IsNull()` tests for it. -/
abbrev uint256 := Nat

/-- `std::map::count` on a map given by its entries in key order. -/
def mapCount {K V : Type} [DecidableEq K] (m : List (K × V)) (k : K) : Nat :=
  if m.any (fun p => p.1 = k) then 1 else 0

/-- `std::map::at`; `none` stands for the `std::out_of_range` it throws on a missing key. -/
def mapAt {K V : Type} [DecidableEq K] (m : List (K × V)) (k : K) : Option V :=
  (m.find? (fun p => p.1 = k)).map Prod.snd

/-- `std::map::emplace` for number keys: a new key is entered at its place in the key
order, a key that is there already keeps its entry. -/
def mapEmplace {V : Type} (k : Nat) (v : V) : List (Nat × V) → List (Nat × V)
  | [] => [(k, v)]
  | p :: rest =>
    if k < p.1 then (k, v) :: p :: rest
    else if k = p.1 then p :: rest
    else p :: mapEmplace k v rest

/-- `std::map::erase` by key. -/
def mapErase {K V : Type} [DecidableEq K] (m : List (K × V)) (k : K) : List (K × V) :=
  m.filter (fun p => p.1 ≠ k)

/-- The fields of `Consensus::LLMQParams` read by the block processor. -/
structure LLMQParams where
  type : Nat
  dkgInterval : Int
  dkgMiningWindowStart : Int
  dkgMiningWindowEnd : Int
  deriving DecidableEq, Repr

/-- A final commitment: the two fields the block processor reads itself (`llmqType` is a
`uint8_t`), and `content` for everything else the class of quorums_commitment.h holds. -/
structure CFinalCommitment where
  llmqType : Nat
  quorumHash : uint256
  content : Nat
  deriving DecidableEq, Repr

/-- What the block processor reads of a `CBlockIndex`: its height and, when `pprev` is
not null, the height of `*pprev`. -/
structure CBlockIndex where
  nHeight : Int
  pprev : Option Int
  deriving DecidableEq, Repr

/-- What the block processor reads of a `CBlock`: the version of `vtx[0]`, what
`GetTxPayload(*vtx[0], qc)` yields (`none` when it fails, else `qc.commitments`),
and `GetHash()`. -/
structure CBlock where
  nVersion : Int
  payload : Option (List CFinalCommitment)
  hash : uint256
  deriving DecidableEq, Repr

/-- The four calls of the template `CEvoDB` that the block processor makes; the template
(evo/evodb.h) is not among the sources, so the store and its calls are parameters. -/
structure EvoDbOps (Db K V : Type) where
  ExistsCache : Db → K → Bool
  ReadCache : Db → K → Option V
  WriteCache : Db → K → V → Db
  EraseCache : Db → K → Db

/-- Everything the block processor takes from other translation units.
* `DIP0003Height` (an `int`) and `llmqs` (a `std::map` keyed by the `uint8_t` type, given
  by its entries in key order) of `Params().GetConsensus()`, and the transaction version
  constant;
* the chain as `chainman` shows it: `ActiveTip` says that `chainman.ActiveTip()` is not
  null, `GetBlockHash h` is the hash that `GetBlockHash(chainman, hash, h)` writes (`none`
  when it returns false), `LookupBlockIndex` is `chainman.m_blockman.LookupBlockIndex`;
* `CLLMQUtils::IsV19Active`, and the methods of `CFinalCommitment`: `Verify qc index
  checkSigs legacy` is `qc.Verify(index, checkSigs)` under the value `legacy` of
  `bls::bls_legacy_scheme`; `SerializeHash` is `::SerializeHash(qc)`;
* the calls of the two stores `m_commitment_evoDb` and `m_inverse_height_evoDb`. -/
structure Externals (DbC DbH : Type) where
  DIP0003Height : Int
  llmqs : List (Nat × LLMQParams)
  SYSCOIN_TX_VERSION_MN_QUORUM_COMMITMENT : Int
  ActiveTip : Bool
  GetBlockHash : Int → Option uint256
  LookupBlockIndex : uint256 → Option CBlockIndex
  IsV19Active : Int → Bool
  IsNull : CFinalCommitment → Bool
  VerifyNull : CFinalCommitment → Bool
  Verify : CFinalCommitment → CBlockIndex → Bool → Bool → Bool
  SerializeHash : CFinalCommitment → uint256
  commitmentDb : EvoDbOps DbC uint256 (CFinalCommitment × uint256)
  inverseHeightDb : EvoDbOps DbH Int Int

/-- The members of `CQuorumBlockProcessor` that change, and the process-wide flag
`bls::bls_legacy_scheme` that `ProcessBlock` stores to. -/
structure CQuorumBlockProcessor (DbC DbH : Type) where
  m_commitment_evoDb : DbC
  m_inverse_height_evoDb : DbH
  minableCommitmentsByQuorum : List (uint256 × uint256)
  minableCommitments : List (uint256 × CFinalCommitment)
  bls_legacy_scheme : Bool

deriving instance DecidableEq for Except

/-- How a validation call ends: `accepted` for `return true`, `rejected r` for
`return state.Invalid(BlockValidationResult::BLOCK_CONSENSUS, r)`. -/
inductive Verdict where
  | accepted
  | rejected (reason : String)
  deriving DecidableEq, Repr

section
variable {DbC DbH : Type}

/-- `CQuorumBlockProcessor::GetCommitmentsFromBlock`, the loop over `qc.commitments`
(lines 318-324): `ret` is the map filled so far. -/
def GetCommitmentsFromBlock.loop :
    List CFinalCommitment → List (Nat × CFinalCommitment) → Except String (List (Nat × CFinalCommitment))
  | [], ret => .ok ret
  | commitment :: rest, ret =>
    if mapCount ret commitment.llmqType ≠ 0 then .error "bad-qc-dup"
    else GetCommitmentsFromBlock.loop rest (mapEmplace commitment.llmqType commitment ret)

/-- `CQuorumBlockProcessor::GetCommitmentsFromBlock` (lines 306-333). `nHeight` is the
`uint32_t` argument; `.ok ret` is `return true` with the map `ret`, `.error r` is
`return state.Invalid(.., r)`. -/
def GetCommitmentsFromBlock (ext : Externals DbC DbH) (block : CBlock) (nHeight : Int) :
    Except String (List (Nat × CFinalCommitment)) :=
  let fDIP0003Active : Bool := decide (nHeight ≥ toUInt32 ext.DIP0003Height)
  let filled : Except String (List (Nat × CFinalCommitment)) :=
    if block.nVersion = ext.SYSCOIN_TX_VERSION_MN_QUORUM_COMMITMENT then
      match block.payload with
      | none => .error "bad-qc-payload"
      | some commitments => GetCommitmentsFromBlock.loop commitments []
    else .ok []
  match filled with
  | .error r => .error r
  | .ok ret =>
    if !fDIP0003Active && !ret.isEmpty then .error "bad-qc-premature" else .ok ret

/-- The operator `%` on two `int`: the truncating remainder, and `none` where C++ leaves it
undefined and the processor traps, that is for the divisor 0 and for `INT_MIN % -1`. -/
def intMod (a b : Int) : Option Int :=
  if b = 0 ∨ (a = -2147483648 ∧ b = -1) then none else some (Int.tmod a b)

/-- `CQuorumBlockProcessor::IsMiningPhase` (lines 335-343); `none` when `llmqs.at` throws
or `nHeight % params.dkgInterval` traps. -/
def IsMiningPhase (ext : Externals DbC DbH) (llmqType : Nat) (nHeight : Int) : Option Bool :=
  match mapAt ext.llmqs llmqType with
  | none => none
  | some params =>
    match intMod nHeight params.dkgInterval with
    | none => none
    | some phaseIndex =>
      if phaseIndex ≥ params.dkgMiningWindowStart ∧ phaseIndex ≤ params.dkgMiningWindowEnd then
        some true
      else some false

/-- `CQuorumBlockProcessor::GetQuorumBlockHash` (lines 360-374); `none` when
`nHeight % params.dkgInterval` traps (or `llmqs.at` throws). -/
def GetQuorumBlockHash (ext : Externals DbC DbH) (llmqType : Nat) (nHeight : Int) :
    Option uint256 :=
  if mapCount ext.llmqs llmqType = 0 then some 0
  else
    match mapAt ext.llmqs llmqType with
    | none => none
    | some params =>
      match intMod nHeight params.dkgInterval with
      | none => none
      | some phaseIndex =>
        let quorumStartHeight : Int := nHeight - phaseIndex
        match ext.GetBlockHash quorumStartHeight with
        | none => some 0
        | some quorumBlockHash => some quorumBlockHash

/-- `CQuorumBlockProcessor::HasMinedCommitment` (lines 376-379). -/
def HasMinedCommitment (ext : Externals DbC DbH) (p : CQuorumBlockProcessor DbC DbH)
    (_llmqType : Nat) (quorumHash : uint256) : Bool :=
  ext.commitmentDb.ExistsCache p.m_commitment_evoDb quorumHash

/-- `CQuorumBlockProcessor::IsCommitmentRequired` (lines 345-357); `none` when the call
of `GetQuorumBlockHash` or of `IsMiningPhase` has no result. The operator `&&` skips its
right side on a null hash. -/
def IsCommitmentRequired (ext : Externals DbC DbH) (p : CQuorumBlockProcessor DbC DbH)
    (llmqType : Nat) (nHeight : Int) : Option Bool :=
  match GetQuorumBlockHash ext llmqType nHeight with
  | none => none
  | some quorumHash =>
    if quorumHash = 0 then some false
    else
      match IsMiningPhase ext llmqType nHeight with
      | none => none
      | some isMiningPhase =>
        let hasMinedCommitment := HasMinedCommitment ext p llmqType quorumHash
        some (isMiningPhase && !hasMinedCommitment)

/-- `CQuorumBlockProcessor::ProcessCommitment` (lines 213-278): the verdict and the
processor afterwards; `none` when a `llmqs.at` throws or a `%` traps. The quorum hash is
computed (line 221) before the test of the active tip replaces it (lines 224-226). -/
def ProcessCommitment (ext : Externals DbC DbH) (p : CQuorumBlockProcessor DbC DbH)
    (nHeight : Int) (blockHash : uint256) (qc : CFinalCommitment)
    (fJustCheck fBLSChecks : Bool) : Option (Verdict × CQuorumBlockProcessor DbC DbH) :=
  if mapCount ext.llmqs qc.llmqType = 0 then some (.rejected "bad-qc-invalid-type", p)
  else
    match mapAt ext.llmqs qc.llmqType with
    | none => none
    | some params =>
      match GetQuorumBlockHash ext qc.llmqType nHeight with
      | none => none
      | some computedHash =>
        let quorumHash : uint256 :=
          if !ext.ActiveTip then qc.quorumHash else computedHash
        if quorumHash = 0 then some (.rejected "bad-qc-block", p)
        else if quorumHash ≠ qc.quorumHash then some (.rejected "bad-qc-block", p)
        else if ext.IsNull qc then
          if !ext.VerifyNull qc then some (.rejected "bad-qc-invalid-null", p)
          else some (.accepted, p)
        else if HasMinedCommitment ext p params.type quorumHash then
          some (.rejected "bad-qc-dup", p)
        else
          match IsMiningPhase ext params.type nHeight with
          | none => none
          | some false => some (.rejected "bad-qc-height", p)
          | some true =>
            match ext.LookupBlockIndex qc.quorumHash with
            | none => some (.rejected "bad-qc-block-index", p)
            | some pQuorumBaseBlockIndex =>
              if !ext.Verify qc pQuorumBaseBlockIndex fBLSChecks p.bls_legacy_scheme then
                some (.rejected "bad-qc-invalid", p)
              else if fJustCheck then some (.accepted, p)
              else
                some (.accepted,
                  { p with
                    m_commitment_evoDb :=
                      ext.commitmentDb.WriteCache p.m_commitment_evoDb quorumHash (qc, blockHash)
                    m_inverse_height_evoDb :=
                      ext.inverseHeightDb.WriteCache p.m_inverse_height_evoDb nHeight
                        pQuorumBaseBlockIndex.nHeight
                    minableCommitmentsByQuorum := mapErase p.minableCommitmentsByQuorum quorumHash
                    minableCommitments := mapErase p.minableCommitments (ext.SerializeHash qc) })

/-- `CQuorumBlockProcessor::ProcessBlock`, the loop over `llmqs` (lines 176-199):
`none` when `IsCommitmentRequired` has no result, `some none` when the loop runs to its end or
leaves by `break`, `some (some r)` when it returns `state.Invalid(.., r)`. -/
def ProcessBlock.checkTypes (ext : Externals DbC DbH) (p : CQuorumBlockProcessor DbC DbH)
    (qcs : List (Nat × CFinalCommitment)) (nHeight : Int) :
    List (Nat × LLMQParams) → Option (Option String)
  | [] => some none
  | entry :: rest =>
    if !ext.ActiveTip then some none
    else
      let type := entry.1
      let hasCommitmentInNewBlock : Bool := decide (mapCount qcs type ≠ 0)
      match IsCommitmentRequired ext p type nHeight with
      | none => none
      | some isCommitmentRequired =>
        if hasCommitmentInNewBlock && !isCommitmentRequired then some (some "bad-qc-not-allowed")
        else if !hasCommitmentInNewBlock && isCommitmentRequired then some (some "bad-qc-missing")
        else ProcessBlock.checkTypes ext p qcs nHeight rest

/-- `CQuorumBlockProcessor::ProcessBlock`, the loop over `qcs` (lines 203-208). -/
def ProcessBlock.processAll (ext : Externals DbC DbH) (nHeight : Int) (blockHash : uint256)
    (fJustCheck fBLSChecks : Bool) :
    List (Nat × CFinalCommitment) → CQuorumBlockProcessor DbC DbH →
      Option (Verdict × CQuorumBlockProcessor DbC DbH)
  | [], p => some (.accepted, p)
  | entry :: rest, p =>
    match ProcessCommitment ext p nHeight blockHash entry.2 fJustCheck fBLSChecks with
    | none => none
    | some (.rejected r, p') => some (.rejected r, p')
    | some (.accepted, p') =>
      ProcessBlock.processAll ext nHeight blockHash fJustCheck fBLSChecks rest p'

/-- `CQuorumBlockProcessor::ProcessBlock` (lines 158-210): the verdict and the processor
afterwards; `none` when the call has no result (`pindex->pprev` is null, an
`std::out_of_range` escapes, or a `%` traps). -/
def ProcessBlock (ext : Externals DbC DbH) (p : CQuorumBlockProcessor DbC DbH)
    (block : CBlock) (pindex : CBlockIndex) (fJustCheck fBLSChecks : Bool) :
    Option (Verdict × CQuorumBlockProcessor DbC DbH) :=
  match pindex.pprev with
  | none => none
  | some pprevHeight =>
    let p₁ : CQuorumBlockProcessor DbC DbH :=
      if ext.IsV19Active pprevHeight then { p with bls_legacy_scheme := false } else p
    let fDIP0003Active : Bool := decide (pindex.nHeight ≥ ext.DIP0003Height)
    if !fBLSChecks || !fDIP0003Active then some (.accepted, p₁)
    else
      match GetCommitmentsFromBlock ext block (toUInt32 pindex.nHeight) with
      | .error r => some (.rejected r, p₁)
      | .ok qcs =>
        match ProcessBlock.checkTypes ext p₁ qcs pindex.nHeight ext.llmqs with
        | none => none
        | some (some r) => some (.rejected r, p₁)
        | some none =>
          ProcessBlock.processAll ext pindex.nHeight block.hash fJustCheck fBLSChecks qcs p₁

end

end LLMQ

namespace LLMQ

/-- The commitments that `GetCommitmentsFromBlock` iterates over (lines 312-318):
`qc.commitments` when `vtx[0]` has the commitment version and its payload can be read,
none otherwise. -/
def blockCommitments {DbC DbH : Type} (ext : Externals DbC DbH) (block : CBlock) :
    List CFinalCommitment :=
  if block.nVersion = ext.SYSCOIN_TX_VERSION_MN_QUORUM_COMMITMENT then block.payload.getD []
  else []

/-- A list-backed store with the four `CEvoDB` calls, to run the block processor on
concrete inputs. -/
def listDb (K V : Type) [DecidableEq K] : EvoDbOps (List (K × V)) K V where
  ExistsCache db k := db.any (fun p => p.1 = k)
  ReadCache db k := mapAt db k
  WriteCache db k v := (k, v) :: mapErase db k
  EraseCache db k := mapErase db k

/-- A concrete chain: DIP0003 from height 10, two LLMQ types with DKG interval 24 and
mining windows 10..18 (type 1) and 20..22 (type 2), an active tip, a block hash
`1000 + h` at every height `h`, and commitments that are null when their content is 0. -/
def exampleExternals :
    Externals (List (uint256 × (CFinalCommitment × uint256))) (List (Int × Int)) where
  DIP0003Height := 10
  llmqs := [(1, ⟨1, 24, 10, 18⟩), (2, ⟨2, 24, 20, 22⟩)]
  SYSCOIN_TX_VERSION_MN_QUORUM_COMMITMENT := 90
  ActiveTip := true
  GetBlockHash := fun h => some (h.toNat + 1000)
  LookupBlockIndex := fun _ => none
  IsV19Active := fun _ => false
  IsNull := fun c => decide (c.content = 0)
  VerifyNull := fun _ => true
  Verify := fun _ _ _ _ => true
  SerializeHash := fun c => c.content
  commitmentDb := listDb _ _
  inverseHeightDb := listDb _ _

/-- A block processor with empty stores and no minable commitment. -/
def exampleProcessor :
    CQuorumBlockProcessor (List (uint256 × (CFinalCommitment × uint256))) (List (Int × Int)) :=
  ⟨[], [], [], [], true⟩

end LLMQ

/-! ## `src/wallet/receive.cpp` -/

/-- Conversion of an integer to the C++ type `int64_t`, which `CAmount` is. -/
def toInt64 (x : Int) : Int := (x + 2 ^ 63) % 2 ^ 64 - 2 ^ 63

namespace Wallet

/-- A transaction output: `nValue` (a `CAmount`) and `scriptPubKey`. -/
structure CTxOut (Script : Type) where
  nValue : Int
  scriptPubKey : Script

/-- What receive.cpp reads of a `CTransaction`: its outputs `vout`. -/
structure CTransaction (Script : Type) where
  vout : List (CTxOut Script)

/-- What receive.cpp calls and does not define, for scripts `Script` and destinations
`Dest`: `IsMine script` is the `isminetype` that `wallet.IsMine(script)` returns (0 is
`ISMINE_NO`); `ExtractDestination script` is the address that `ExtractDestination(script,
address)` writes, `none` when it returns false; `FindAddressBookEntry address` says that
`wallet.FindAddressBookEntry(address)` is not null; `MoneyRange` is the helper of
consensus/amount.h. -/
structure CWallet (Script Dest : Type) where
  IsMine : Script → Nat
  ExtractDestination : Script → Option Dest
  FindAddressBookEntry : Dest → Bool
  MoneyRange : Int → Bool

section
variable {Script Dest : Type}

/-- `wallet::ScriptIsChange` (receive.cpp lines 33-53). -/
def ScriptIsChange (wallet : CWallet Script Dest) (script : Script) : Bool :=
  if wallet.IsMine script ≠ 0 then
    match wallet.ExtractDestination script with
    | none => true
    | some address =>
      if !wallet.FindAddressBookEntry address then true
      else false
  else false

/-- `wallet::OutputIsChange` (receive.cpp lines 55-58). -/
def OutputIsChange (wallet : CWallet Script Dest) (txout : CTxOut Script) : Bool :=
  ScriptIsChange wallet txout.scriptPubKey

/-- `wallet::OutputGetChange` (receive.cpp lines 60-66); `.error m` is the
`std::runtime_error` with message `m`. -/
def OutputGetChange (wallet : CWallet Script Dest) (txout : CTxOut Script) : Except String Int :=
  if !wallet.MoneyRange txout.nValue then .error "OutputGetChange: value out of range"
  else .ok (if OutputIsChange wallet txout then txout.nValue else 0)

/-- `wallet::TxGetChange`, the loop over `tx.vout` (receive.cpp lines 72-77), from the
value `nChange` has so far. The sum is taken in `int64_t`. -/
def TxGetChange.loop (wallet : CWallet Script Dest) :
    List (CTxOut Script) → Int → Except String Int
  | [], nChange => .ok nChange
  | txout :: rest, nChange =>
    match OutputGetChange wallet txout with
    | .error m => .error m
    | .ok change =>
      let nChange₁ : Int := toInt64 (nChange + change)
      if !wallet.MoneyRange nChange₁ then .error "TxGetChange: value out of range"
      else TxGetChange.loop wallet rest nChange₁

/-- `wallet::TxGetChange` (receive.cpp lines 68-79). -/
def TxGetChange (wallet : CWallet Script Dest) (tx : CTransaction Script) : Except String Int :=
  TxGetChange.loop wallet tx.vout 0

/-- The sum of `nValue` over the outputs of a list for which `OutputIsChange` holds. -/
def changeSum (wallet : CWallet Script Dest) (outs : List (CTxOut Script)) : Int :=
  ((outs.filter (fun o => OutputIsChange wallet o)).map (fun o => o.nValue)).sum

end

/-- A concrete wallet over number scripts: scripts below 10 are ours, an even script pays
to the destination of the same number, destination 2 is in the address book, and
`MAX_MONEY` is 2100000000000000. -/
def exampleWallet : CWallet Nat Nat where
  IsMine := fun script => if script < 10 then 1 else 0
  ExtractDestination := fun script => if script % 2 = 0 then some script else none
  FindAddressBookEntry := fun address => decide (address = 2)
  MoneyRange := fun v => decide (0 ≤ v ∧ v ≤ 2100000000000000)

end Wallet

/-! ## `src/llmq/quorums_blockprocessor.cpp`: minable and mined commitments -/

namespace LLMQ

/-- What `GetMinableCommitment` uses of the class `CFinalCommitment` (quorums_commitment.h,
not among the sources) to build a null commitment: `construct params quorumHash` is the
constructor call `CFinalCommitment(params, quorumHash)`, `GetVersion` is the static
`CFinalCommitment::GetVersion`, and `withVersion qc v` is `qc` after `qc.nVersion = v`. -/
structure CommitmentOps where
  construct : LLMQParams → uint256 → CFinalCommitment
  GetVersion : Bool → Int
  withVersion : CFinalCommitment → Int → CFinalCommitment

section
variable {DbC DbH : Type}

/-- `CQuorumBlockProcessor::GetMinableCommitment` (lines 464-491): the returned flag and
the value of the reference parameter `ret` afterwards (`ret` is its value before); `none`
when a `map::at` throws or a `%` traps. -/
def GetMinableCommitment (ext : Externals DbC DbH) (ops : CommitmentOps)
    (p : CQuorumBlockProcessor DbC DbH) (llmqType : Nat) (nHeight : Int)
    (ret : CFinalCommitment) : Option (Bool × CFinalCommitment) :=
  match IsCommitmentRequired ext p llmqType nHeight with
  | none => none
  | some false => some (false, ret)
  | some true =>
    let basic_bls_enabled : Bool := ext.IsV19Active nHeight
    match GetQuorumBlockHash ext llmqType nHeight with
    | none => none
    | some quorumHash =>
      if quorumHash = 0 then some (false, ret)
      else
        match mapAt p.minableCommitmentsByQuorum quorumHash with
        | none =>
          match mapAt ext.llmqs llmqType with
          | none => none
          | some params =>
            some (true, ops.withVersion (ops.construct params quorumHash)
              (ops.GetVersion basic_bls_enabled))
        | some commitmentHash =>
          match mapAt p.minableCommitments commitmentHash with
          | none => none
          | some qc => some (true, qc)

/-- `CQuorumBlockProcessor::GetMinedCommitmentsUntilBlock`, the loop of lines 397-411,
from the values `currentHeight` and `ret` have at its head. `GetAncestor` is
`pindex->GetAncestor`, `none` for a null pointer. Every pushed block index is kept with
the height `currentHeight` it was found at. `none` when the `assert` fails. -/
def GetMinedCommitmentsUntilBlock.loop (ext : Externals DbC DbH)
    (p : CQuorumBlockProcessor DbC DbH) (GetAncestor : Int → Option CBlockIndex)
    (maxCount : Nat) (currentHeight : Int) (ret : List (Int × CBlockIndex)) :
    Option (List (Int × CBlockIndex)) :=
  if currentHeight ≥ 0 ∧ ret.length < maxCount then
    if !ext.inverseHeightDb.ExistsCache p.m_inverse_height_evoDb currentHeight then
      GetMinedCommitmentsUntilBlock.loop ext p GetAncestor maxCount (currentHeight - 1) ret
    else
      match ext.inverseHeightDb.ReadCache p.m_inverse_height_evoDb currentHeight with
      | none => some ret
      | some quorumHeight =>
        match GetAncestor quorumHeight with
        | none => none
        | some pQuorumBaseBlockIndex =>
          GetMinedCommitmentsUntilBlock.loop ext p GetAncestor maxCount (currentHeight - 1)
            (ret ++ [(currentHeight, pQuorumBaseBlockIndex)])
  else some ret
termination_by (currentHeight + 1).toNat
decreasing_by all_goals (simp_wf; omega)

/-- `CQuorumBlockProcessor::GetMinedCommitmentsUntilBlock` (lines 392-413) with the
height each entry was found at. `max_size` is `ret.max_size()` of the vector of pointers:
`ret.reserve(maxCount)` (line 396) throws `std::length_error` above it, and the call has no
result. After the `reserve` no `emplace_back` allocates, the loop stops at `maxCount`
entries. -/
def GetMinedCommitmentsUntilBlock.trace (ext : Externals DbC DbH)
    (p : CQuorumBlockProcessor DbC DbH) (_llmqType : Nat) (pindex : CBlockIndex)
    (GetAncestor : Int → Option CBlockIndex) (max_size maxCount : Nat) :
    Option (List (Int × CBlockIndex)) :=
  if maxCount > max_size then none
  else GetMinedCommitmentsUntilBlock.loop ext p GetAncestor maxCount pindex.nHeight []

/-- `CQuorumBlockProcessor::GetMinedCommitmentsUntilBlock` (lines 392-413): the returned
vector; `none` when `ret.reserve` throws or the `assert` fails. -/
def GetMinedCommitmentsUntilBlock (ext : Externals DbC DbH)
    (p : CQuorumBlockProcessor DbC DbH) (llmqType : Nat) (pindex : CBlockIndex)
    (GetAncestor : Int → Option CBlockIndex) (max_size maxCount : Nat) :
    Option (List CBlockIndex) :=
  (GetMinedCommitmentsUntilBlock.trace ext p llmqType pindex GetAncestor max_size maxCount).map
    (List.map Prod.snd)

/-- The heights `n - 1, n - 2, .., 0`, highest first. -/
def heightsDown : Nat → List Int
  | 0 => []
  | n + 1 => (n : Int) :: heightsDown n

/-- All values of a list of optional values, `none` if one of them is missing. -/
def allSome {α : Type} : List (Option α) → Option (List α)
  | [] => some []
  | none :: _ => none
  | some a :: rest => (allSome rest).map (fun l => a :: l)

/-- Reference for `GetMinedCommitmentsUntilBlock`, to compare the loop with: the mining
heights that a call answers with, said without the loop. They are, of the heights
`pindex->nHeight, .., 0`, highest first, those that `m_inverse_height_evoDb` has an entry
for, up to the first whose entry cannot be read, and of these the first `maxCount`. -/
def minedHeights (ext : Externals DbC DbH) (p : CQuorumBlockProcessor DbC DbH)
    (pindex : CBlockIndex) (maxCount : Nat) : List Int :=
  (((heightsDown (pindex.nHeight + 1).toNat).filter
      (fun h => ext.inverseHeightDb.ExistsCache p.m_inverse_height_evoDb h)).takeWhile
      (fun h => (ext.inverseHeightDb.ReadCache p.m_inverse_height_evoDb h).isSome)).take maxCount

/-- Reference for `GetMinedCommitmentsUntilBlock`, to compare the loop with: the entry of
the result that belongs to the mining height `h`, which is the ancestor of `pindex` at the
quorum height stored for `h`; `none` when there is no such ancestor. -/
def minedEntry (ext : Externals DbC DbH) (p : CQuorumBlockProcessor DbC DbH)
    (GetAncestor : Int → Option CBlockIndex) (h : Int) : Option (Int × CBlockIndex) :=
  match ext.inverseHeightDb.ReadCache p.m_inverse_height_evoDb h with
  | none => none
  | some quorumHeight =>
    match GetAncestor quorumHeight with
    | none => none
    | some pQuorumBaseBlockIndex => some (h, pQuorumBaseBlockIndex)

end

section
variable {DbC DbH : Type}

/-- The call `map.emplace(k, v)` on one of the two maps of minable commitments: the entry is
added only when the key is new. The two maps are searched and never iterated, so the place
of a new entry is of no account. -/
def mapInsert {K V : Type} [DecidableEq K] (m : List (K × V)) (k : K) (v : V) : List (K × V) :=
  if mapCount m k ≠ 0 then m else m ++ [(k, v)]

/-- The assignment `it->second = v` through an iterator `it` to the entry of key `k`. -/
def mapAssign {K V : Type} [DecidableEq K] (m : List (K × V)) (k : K) (v : V) : List (K × V) :=
  m.map (fun p => if p.1 = k then (p.1, v) else p)

/-- `CQuorumBlockProcessor::AddMineableCommitment` (lines 421-449): the processor
afterwards and the flag `relay`, on which the new commitment is announced to the peers;
`none` when `minableCommitments.at` throws. `CountSigners` is the method of
`CFinalCommitment`. -/
def AddMineableCommitment (ext : Externals DbC DbH) (CountSigners : CFinalCommitment → Int)
    (p : CQuorumBlockProcessor DbC DbH) (fqc : CFinalCommitment) :
    Option (CQuorumBlockProcessor DbC DbH × Bool) :=
  let commitmentHash : uint256 := ext.SerializeHash fqc
  match mapAt p.minableCommitmentsByQuorum fqc.quorumHash with
  | none =>
    some ({ p with
            minableCommitmentsByQuorum :=
              mapInsert p.minableCommitmentsByQuorum fqc.quorumHash commitmentHash
            minableCommitments := mapInsert p.minableCommitments commitmentHash fqc }, true)
  | some known =>
    match mapAt p.minableCommitments known with
    | none => none
    | some oldFqc =>
      if CountSigners fqc > CountSigners oldFqc then
        some ({ p with
                minableCommitmentsByQuorum :=
                  mapAssign p.minableCommitmentsByQuorum fqc.quorumHash commitmentHash
                minableCommitments :=
                  mapInsert (mapErase p.minableCommitments commitmentHash) commitmentHash fqc },
              true)
      else some (p, false)

/-- The two maps of minable commitments fit together: every stored commitment is stored
under its own hash, and every quorum hash of the index names a stored commitment of that
quorum hash. -/
def MinableConsistent (ext : Externals DbC DbH) (p : CQuorumBlockProcessor DbC DbH) : Prop :=
  (∀ h qc, mapAt p.minableCommitments h = some qc → ext.SerializeHash qc = h)
  ∧ (∀ quorumHash h, mapAt p.minableCommitmentsByQuorum quorumHash = some h →
      ∃ qc, mapAt p.minableCommitments h = some qc ∧ qc.quorumHash = quorumHash)

end

/-- Concrete commitment operations: the constructor builds a commitment of the type of
`params` with content 0, and the version (1 legacy, 2 basic) is kept in the content. -/
def exampleOps : CommitmentOps where
  construct := fun params quorumHash => ⟨params.type, quorumHash, 0⟩
  GetVersion := fun basic => if basic then 2 else 1
  withVersion := fun qc v => { qc with content := v.toNat }

/-- A block processor that knows the minable commitment with hash 55 for the quorum hash
1000, and in which heights 7 and 3 are recorded as mining heights of the quorums of
heights 5 and 0. -/
def exampleProcessorMinable :
    CQuorumBlockProcessor (List (uint256 × (CFinalCommitment × uint256))) (List (Int × Int)) :=
  ⟨[], [(7, 5), (3, 0)], [(1000, 55)], [(55, ⟨1, 1000, 9⟩)], true⟩

end LLMQ

/-! ## `src/spork.cpp`: the reference parameter of `SporkValueIsActive` -/

namespace Spork

/-- The loop of `SporkValueIsActive` (spork.cpp lines 46-54) with the reference parameter
`nActiveValueRet`: it is assigned only right before `return true`. -/
def SporkValueIsActiveRef.loop (nMinSporkKeys : Int) :
    List (CKeyID × CSporkMessage) → (Int → Int) → Int → Bool × Int
  | [], _, nActiveValueRet => (false, nActiveValueRet)
  | p :: rest, counts, nActiveValueRet =>
    let counts' : Int → Int := fun v => if v = p.2.nValue then counts v + 1 else counts v
    if counts' p.2.nValue ≥ nMinSporkKeys then (true, p.2.nValue)
    else SporkValueIsActiveRef.loop nMinSporkKeys rest counts' nActiveValueRet

/-- `CSporkManager::SporkValueIsActive` (spork.cpp lines 38-57) with its reference
parameter: the returned flag and the value of `nActiveValueRet` afterwards, from the value
it has at the call. -/
def SporkValueIsActiveRef (s : CSporkManager) (nSporkID : Int) (nActiveValueRet : Int) :
    Bool × Int :=
  match find s.mapSporksActive nSporkID with
  | none => (false, nActiveValueRet)
  | some signers =>
    SporkValueIsActiveRef.loop s.nMinSporkKeys signers (fun _ => 0) nActiveValueRet

/-- The number of signers of a signer map that vote the value `v`. -/
def votes (signers : List (CKeyID × CSporkMessage)) (v : Int) : Nat :=
  signers.countP (fun p => decide (p.2.nValue = v))

end Spork

/-! ## `src/wallet/test/coinselection_tests.cpp` -/

namespace CoinSelectionTests

/-- What `EquivalentResult` reads of a `COutput`: `txout.nValue`. -/
structure COutput where
  nValue : Int
  deriving DecidableEq, Repr

/-- What `EquivalentResult` reads of a `SelectionResult`: the inputs of `GetInputSet()`,
in the iteration order of the set. -/
structure SelectionResult where
  GetInputSet : List COutput
  deriving DecidableEq, Repr

/-- The call `std::mismatch(first1, last1, first2)` on two vectors: it walks both while
`first1 != last1 && *first1 == *first2` and returns where it stops, as the two positions
`(ret.first, ret.second)`. The second range has no end in this overload: `none` when
`*first2` is read at or past the end of the second vector. -/
def mismatch : List Int → List Int → Option (Nat × Nat)
  | [], _ => some (0, 0)
  | _ :: _, [] => none
  | a :: as, b :: bs =>
    if a = b then (mismatch as bs).map (fun ret => (ret.1 + 1, ret.2 + 1))
    else some (0, 0)

/-- `EquivalentResult` (coinselection_tests.cpp lines 86-101); `none` when the call of
`std::mismatch` reads past the end of `b_amts`. -/
def EquivalentResult (a b : SelectionResult) : Option Bool :=
  let a_amts : List Int := (a.GetInputSet.map (fun coin => coin.nValue)).insertionSort (· ≤ ·)
  let b_amts : List Int := (b.GetInputSet.map (fun coin => coin.nValue)).insertionSort (· ≤ ·)
  match mismatch a_amts b_amts with
  | none => none
  | some ret => some (decide (ret.1 = a_amts.length) && decide (ret.2 = b_amts.length))

end CoinSelectionTests

/-! ## Theorems -/

/-! ### `src/spork.cpp` -/

namespace Spork

theorem toInt32_of_lt (n : Nat) (h : n < 2 ^ 31) : toInt32 (n : Int) = (n : Int) := by
  unfold toInt32
  omega

/-- C9: with `n` registered spork key IDs (`n` below 2^31, so that it fits the `int`
it is stored in), `SetMinSporkKeys k` returns true and stores `k` if and only if
`n / 2 < k ≤ n` (integer division); otherwise it returns false and leaves the manager,
and so `nMinSporkKeys`, as it was; with no key registered it always returns false. -/
theorem SetMinSporkKeys_spec (s : CSporkManager) (k : Int)
    (hn : s.setSporkPubKeyIDs.card < 2 ^ 31) :
    (((SetMinSporkKeys s k).1 = true ∧ (SetMinSporkKeys s k).2 = { s with nMinSporkKeys := k })
        ↔ (((s.setSporkPubKeyIDs.card / 2 : Nat) : Int) < k ∧ k ≤ (s.setSporkPubKeyIDs.card : Int)))
    ∧ (¬ ((((s.setSporkPubKeyIDs.card / 2 : Nat) : Int) < k ∧ k ≤ (s.setSporkPubKeyIDs.card : Int)))
        → SetMinSporkKeys s k = (false, s))
    ∧ (s.setSporkPubKeyIDs.card = 0 → SetMinSporkKeys s k = (false, s)) := by
  have hc := toInt32_of_lt _ hn
  have hdiv : Int.tdiv (s.setSporkPubKeyIDs.card : Int) 2
      = ((s.setSporkPubKeyIDs.card / 2 : Nat) : Int) := by
    rw [Int.tdiv_eq_ediv (Int.natCast_nonneg _) (by decide)]
    simp
  simp only [SetMinSporkKeys, hc, hdiv]
  refine ⟨?_, ?_, ?_⟩
  · split_ifs with h
    · constructor
      · intro h1; simp at h1
      · intro h2; omega
    · constructor
      · intro _; omega
      · intro _; exact ⟨rfl, rfl⟩
  · intro hcond
    rw [if_pos (by omega)]
  · intro h0
    rw [if_pos (by omega)]

/-- Witness of C9: three registered keys and `k = 2`. -/
theorem SetMinSporkKeys_spec_witness :
    (((SetMinSporkKeys ⟨[], {1, 2, 3}, 1⟩ 2).1 = true
        ∧ (SetMinSporkKeys ⟨[], {1, 2, 3}, 1⟩ 2).2
            = { (⟨[], {1, 2, 3}, 1⟩ : CSporkManager) with nMinSporkKeys := 2 })
      ↔ ((((({1, 2, 3} : Finset CKeyID).card / 2 : Nat)) : Int) < 2
          ∧ (2 : Int) ≤ ((({1, 2, 3} : Finset CKeyID).card : Nat) : Int))) :=
  (SetMinSporkKeys_spec ⟨[], {1, 2, 3}, 1⟩ 2 (by decide)).1


theorem find_append {K V : Type} [DecidableEq K] (m₁ m₂ : List (K × V)) (k : K) :
    find (m₁ ++ m₂) k = (find m₁ k).or (find m₂ k) := by
  unfold find
  rw [List.find?_append]
  cases List.find? (fun p => decide (p.1 = k)) m₁ <;> simp

theorem find_isSome_of_any {K V : Type} [DecidableEq K] (m : List (K × V)) (k : K)
    (h : m.any (fun p => decide (p.1 = k)) = true) : ∃ x, find m k = some x := by
  induction m with
  | nil => simp at h
  | cons p m ih =>
    by_cases hp : p.1 = k
    · exact ⟨p.2, by simp [find, List.find?, hp]⟩
    · simp only [List.any_cons, hp, decide_False, Bool.false_or] at h
      obtain ⟨x, hx⟩ := ih h
      refine ⟨x, ?_⟩
      simp only [find] at hx
      simp [find, List.find?, hp, hx]

theorem find_emplace {K V : Type} [DecidableEq K] (m : List (K × V)) (k' : K) (v : V) (k : K) :
    find (emplace m k' v) k = (find m k).or (if k' = k then some v else none) := by
  unfold emplace
  split_ifs with h hk hk
  · subst hk
    obtain ⟨x, hx⟩ := find_isSome_of_any m k' h
    simp [hx]
  · simp
  · rw [find_append]
    simp [find, List.find?, hk]
  · rw [find_append]
    simp [find, List.find?, hk]

theorem find_foldl_emplace {K V : Type} [DecidableEq K] (f : V → K) (l : List V)
    (acc : List (K × V)) (k : K) :
    find (l.foldl (fun m d => emplace m (f d) d) acc) k
      = (find acc k).or (l.find? (fun d => decide (f d = k))) := by
  induction l generalizing acc with
  | nil => simp
  | cons d l ih =>
    rw [List.foldl_cons, ih, find_emplace]
    cases find acc k with
    | some x => simp
    | none =>
      by_cases hk : f d = k <;> simp [List.find?, hk]

theorem findFirst_key_of_nodup {K V : Type} [DecidableEq K] (f : V → K) (l : List V)
    (hl : (l.map f).Nodup) (d : V) (hd : d ∈ l) :
    l.find? (fun e => decide (f e = f d)) = some d := by
  induction l with
  | nil => simp at hd
  | cons e l ih =>
    rw [List.map_cons, List.nodup_cons] at hl
    rcases List.mem_cons.1 hd with h | h
    · subst h; simp [List.find?]
    · have hne : f e ≠ f d := by
        intro heq
        exact hl.1 (heq ▸ List.mem_map_of_mem f h)
      simp [List.find?, hne, ih hl.2 h]

theorem find_sporkDefsById (ids : SporkIds) (hd : ids.Distinct) :
    ∀ d ∈ sporkDefs ids, find (sporkDefsById ids) d.sporkId = some d := by
  intro d hdmem
  unfold sporkDefsById
  rw [find_foldl_emplace]
  have hnd : ((sporkDefs ids).map CSporkDef.sporkId).Nodup := hd
  simp [find, findFirst_key_of_nodup CSporkDef.sporkId _ hnd d hdmem]


/-- C10: when no signed value is active for a spork of `sporkDefs`, `GetSporkValue`
returns its default; hence `IsSporkActive` is true for SPORK_6_NEW_SIGS,
SPORK_9_SUPERBLOCKS_ENABLED and SPORK_15_DETERMINISTIC_MNS_ENABLED at every adjusted time
greater than 0, and false for SPORK_17_QUORUM_DKG_ENABLED, SPORK_21_QUORUM_ALL_CONNECTED
and SPORK_TEST at every adjusted time not above 4070908800. -/
theorem default_spork_states (ids : SporkIds) (hd : ids.Distinct) (s : CSporkManager) :
    (∀ d ∈ sporkDefs ids, SporkValueIsActive s d.sporkId = none →
        GetSporkValue ids s d.sporkId = d.defaultValue)
    ∧ (∀ id ∈ [ids.SPORK_6_NEW_SIGS, ids.SPORK_9_SUPERBLOCKS_ENABLED,
                ids.SPORK_15_DETERMINISTIC_MNS_ENABLED],
        SporkValueIsActive s id = none →
          ∀ t : Int, 0 < t → IsSporkActive ids s id t = true)
    ∧ (∀ id ∈ [ids.SPORK_17_QUORUM_DKG_ENABLED, ids.SPORK_21_QUORUM_ALL_CONNECTED,
                ids.SPORK_TEST],
        SporkValueIsActive s id = none →
          ∀ t : Int, t ≤ 4070908800 → IsSporkActive ids s id t = false) := by
  have hval : ∀ d ∈ sporkDefs ids, SporkValueIsActive s d.sporkId = none →
      GetSporkValue ids s d.sporkId = d.defaultValue := by
    intro d hdm hno
    simp only [GetSporkValue, hno, find_sporkDefsById ids hd d hdm]
  refine ⟨hval, ?_, ?_⟩
  · intro id hid hno t ht
    simp only [List.mem_cons, List.mem_singleton, List.not_mem_nil, or_false] at hid
    rcases hid with h | h | h <;> subst h
    · have := hval ⟨ids.SPORK_6_NEW_SIGS, 0, "SPORK_6_NEW_SIGS"⟩ (by simp [sporkDefs]) hno
      simp only at this
      simp [IsSporkActive, this, ht]
    · have := hval ⟨ids.SPORK_9_SUPERBLOCKS_ENABLED, 0, "SPORK_9_SUPERBLOCKS_ENABLED"⟩
        (by simp [sporkDefs]) hno
      simp only at this
      simp [IsSporkActive, this, ht]
    · have := hval ⟨ids.SPORK_15_DETERMINISTIC_MNS_ENABLED, 0,
        "SPORK_15_DETERMINISTIC_MNS_ENABLED"⟩ (by simp [sporkDefs]) hno
      simp only at this
      simp [IsSporkActive, this, ht]
  · intro id hid hno t ht
    simp only [List.mem_cons, List.mem_singleton, List.not_mem_nil, or_false] at hid
    rcases hid with h | h | h <;> subst h
    · have := hval ⟨ids.SPORK_17_QUORUM_DKG_ENABLED, 4070908800,
        "SPORK_17_QUORUM_DKG_ENABLED"⟩ (by simp [sporkDefs]) hno
      simp only at this
      simp [IsSporkActive, this, ht]
    · have := hval ⟨ids.SPORK_21_QUORUM_ALL_CONNECTED, 4070908800,
        "SPORK_21_QUORUM_ALL_CONNECTED"⟩ (by simp [sporkDefs]) hno
      simp only at this
      simp [IsSporkActive, this, ht]
    · have := hval ⟨ids.SPORK_TEST, 4070908800, "SPORK_TEST"⟩ (by simp [sporkDefs]) hno
      simp only at this
      simp [IsSporkActive, this, ht]

/-- Witness of C10: enumerator values 10005, 10008, 10014, 10016, 10020, 10022 and a
manager that has received no spork message. -/
theorem default_spork_states_witness :
    IsSporkActive ⟨10005, 10008, 10014, 10016, 10020, 10022⟩ ⟨[], ∅, 1⟩ 10005 1 = true
    ∧ IsSporkActive ⟨10005, 10008, 10014, 10016, 10020, 10022⟩ ⟨[], ∅, 1⟩ 10016 4070908800
        = false :=
  ⟨(default_spork_states ⟨10005, 10008, 10014, 10016, 10020, 10022⟩ (by decide) ⟨[], ∅, 1⟩).2.1
      10005 (by simp) rfl 1 (by decide),
   (default_spork_states ⟨10005, 10008, 10014, 10016, 10020, 10022⟩ (by decide) ⟨[], ∅, 1⟩).2.2
      10016 (by simp) rfl 4070908800 (by decide)⟩


end Spork

/-! ### `src/llmq/quorums_blockprocessor.cpp` -/

namespace LLMQ

theorem mapCount_ne_zero {K V : Type} [DecidableEq K] (m : List (K × V)) (k : K) :
    mapCount m k ≠ 0 ↔ k ∈ m.map Prod.fst := by
  unfold mapCount
  split_ifs with h
  · simp only [List.any_eq_true, decide_eq_true_eq] at h
    obtain ⟨p, hp, hk⟩ := h
    simp only [ne_eq, one_ne_zero, not_false_eq_true, true_iff]
    exact hk ▸ List.mem_map_of_mem Prod.fst hp
  · simp only [ne_eq, not_true_eq_false, false_iff]
    intro hmem
    obtain ⟨p, hp, hk⟩ := List.mem_map.1 hmem
    exact h (List.any_eq_true.2 ⟨p, hp, by simp [hk]⟩)

theorem mapEmplace_perm {V : Type} (k : Nat) (v : V) (m : List (Nat × V))
    (hk : k ∉ m.map Prod.fst) : (mapEmplace k v m).Perm ((k, v) :: m) := by
  induction m with
  | nil => simp [mapEmplace]
  | cons p rest ih =>
    simp only [List.map_cons, List.mem_cons, not_or] at hk
    unfold mapEmplace
    split_ifs with h1 h2
    · exact List.Perm.refl _
    · exact absurd h2 hk.1
    · exact ((ih hk.2).cons p).trans (List.Perm.swap _ _ _)

theorem mem_mapEmplace {V : Type} (k : Nat) (v : V) (m : List (Nat × V)) (q : Nat × V)
    (hq : q ∈ mapEmplace k v m) : q = (k, v) ∨ q ∈ m := by
  induction m with
  | nil => simpa [mapEmplace] using hq
  | cons p rest ih =>
    unfold mapEmplace at hq
    split_ifs at hq with h1 h2
    · rcases List.mem_cons.1 hq with h | h
      · exact Or.inl h
      · exact Or.inr h
    · exact Or.inr hq
    · rcases List.mem_cons.1 hq with h | h
      · exact Or.inr (h ▸ List.mem_cons_self _ _)
      · rcases ih h with h' | h'
        · exact Or.inl h'
        · exact Or.inr (List.mem_cons_of_mem _ h')

theorem mapEmplace_sorted {V : Type} (k : Nat) (v : V) (m : List (Nat × V))
    (hs : m.Pairwise (fun a b => a.1 < b.1)) :
    (mapEmplace k v m).Pairwise (fun a b => a.1 < b.1) := by
  induction m with
  | nil => simp [mapEmplace]
  | cons p rest ih =>
    rw [List.pairwise_cons] at hs
    unfold mapEmplace
    split_ifs with h1 h2
    · refine List.pairwise_cons.2 ⟨?_, List.pairwise_cons.2 hs⟩
      intro q hq
      rcases List.mem_cons.1 hq with h | h
      · subst h; exact h1
      · exact lt_trans h1 (hs.1 q h)
    · exact List.pairwise_cons.2 hs
    · refine List.pairwise_cons.2 ⟨?_, ih hs.2⟩
      intro q hq
      rcases mem_mapEmplace k v rest q hq with h | h
      · subst h
        show p.1 < k
        omega
      · exact hs.1 q h

theorem loop_error {cs : List CFinalCommitment} {ret : List (Nat × CFinalCommitment)} {e : String}
    (h : GetCommitmentsFromBlock.loop cs ret = .error e) : e = "bad-qc-dup" := by
  induction cs generalizing ret with
  | nil => simp [GetCommitmentsFromBlock.loop] at h
  | cons c rest ih =>
    unfold GetCommitmentsFromBlock.loop at h
    split_ifs at h with hc
    · injection h with h; exact h.symm
    · exact ih h

theorem loop_ok_iff (cs : List CFinalCommitment) (ret : List (Nat × CFinalCommitment)) :
    (∃ r, GetCommitmentsFromBlock.loop cs ret = .ok r)
      ↔ ((cs.map CFinalCommitment.llmqType).Nodup
          ∧ ∀ c ∈ cs, c.llmqType ∉ ret.map Prod.fst) := by
  induction cs generalizing ret with
  | nil => simp [GetCommitmentsFromBlock.loop]
  | cons c rest ih =>
    unfold GetCommitmentsFromBlock.loop
    by_cases hc : c.llmqType ∈ ret.map Prod.fst
    · rw [if_pos ((mapCount_ne_zero _ _).2 hc)]
      constructor
      · rintro ⟨r, hr⟩; cases hr
      · rintro ⟨_, hall⟩
        exact absurd hc (hall c (List.mem_cons_self _ _))
    · rw [if_neg (fun h => hc ((mapCount_ne_zero _ _).1 h)), ih]
      have hperm := mapEmplace_perm c.llmqType c ret hc
      have hkeys : ∀ k, k ∈ (mapEmplace c.llmqType c ret).map Prod.fst
          ↔ k = c.llmqType ∨ k ∈ ret.map Prod.fst := by
        intro k
        rw [(hperm.map Prod.fst).mem_iff]; simp
      rw [List.map_cons, List.nodup_cons]
      constructor
      · rintro ⟨hnd, hall⟩
        refine ⟨⟨?_, hnd⟩, ?_⟩
        · intro hmem
          obtain ⟨a, ha, hEq⟩ := List.mem_map.1 hmem
          exact (hall a ha) ((hkeys _).2 (Or.inl hEq))
        · intro a ha
          rcases List.mem_cons.1 ha with h | h
          · subst h; exact hc
          · exact fun hm => (hall a h) ((hkeys _).2 (Or.inr hm))
      · rintro ⟨⟨hnot, hnd⟩, hall⟩
        refine ⟨hnd, fun a ha hm => ?_⟩
        rcases (hkeys _).1 hm with h | h
        · exact hnot (h ▸ List.mem_map_of_mem CFinalCommitment.llmqType ha)
        · exact hall a (List.mem_cons_of_mem _ ha) h

theorem loop_ok_perm {cs : List CFinalCommitment} {ret r : List (Nat × CFinalCommitment)}
    (h : GetCommitmentsFromBlock.loop cs ret = .ok r) :
    r.Perm (ret ++ cs.map (fun c => (c.llmqType, c)))
      ∧ (ret.Pairwise (fun a b => a.1 < b.1) → r.Pairwise (fun a b => a.1 < b.1)) := by
  induction cs generalizing ret with
  | nil =>
    simp only [GetCommitmentsFromBlock.loop, Except.ok.injEq] at h
    subst h; simp
  | cons c rest ih =>
    unfold GetCommitmentsFromBlock.loop at h
    split_ifs at h with hc
    have hc' : c.llmqType ∉ ret.map Prod.fst := fun hm => hc ((mapCount_ne_zero _ _).2 hm)
    obtain ⟨hp, hs⟩ := ih h
    refine ⟨?_, fun hsorted => hs (mapEmplace_sorted _ _ _ hsorted)⟩
    refine hp.trans ?_
    have h1 := (mapEmplace_perm c.llmqType c ret hc').append_right
      (rest.map (fun c => (c.llmqType, c)))
    refine h1.trans ?_
    simp only [List.map_cons, List.cons_append]
    exact (List.perm_middle).symm



theorem GetCommitmentsFromBlock_eq {DbC DbH : Type} (ext : Externals DbC DbH) (block : CBlock)
    (nHeight : Int) :
    GetCommitmentsFromBlock ext block nHeight =
      (if block.nVersion = ext.SYSCOIN_TX_VERSION_MN_QUORUM_COMMITMENT ∧ block.payload = none then
        .error "bad-qc-payload"
      else
        match GetCommitmentsFromBlock.loop (blockCommitments ext block) [] with
        | .error r => .error r
        | .ok ret =>
          if !decide (nHeight ≥ toUInt32 ext.DIP0003Height) && !ret.isEmpty then
            .error "bad-qc-premature"
          else .ok ret) := by
  simp only [GetCommitmentsFromBlock, blockCommitments]
  by_cases hv : block.nVersion = ext.SYSCOIN_TX_VERSION_MN_QUORUM_COMMITMENT
  · cases hp : block.payload with
    | none => simp [hv]
    | some cs => simp [hv]
  · simp [hv, GetCommitmentsFromBlock.loop]

/-- C8 (amended): `GetCommitmentsFromBlock` allows one commitment per LLMQ type and block.
For a height `nHeight` (a `uint32_t`, so not negative) and a `DIP0003Height` that is an
`int`: it fails with 'bad-qc-dup' exactly when the payload lists two commitments with the
same `llmqType`; it fails with 'bad-qc-premature' when commitments are present below
`DIP0003Height` and no two of them share a type; and on success the returned map has
exactly one entry per payload commitment, keyed by that commitment's type (and is in key
order). -/
theorem GetCommitmentsFromBlock_spec {DbC DbH : Type} (ext : Externals DbC DbH) (block : CBlock)
    (nHeight : Int) (hH : 0 ≤ nHeight) (hD : ext.DIP0003Height < 2 ^ 31) :
    (GetCommitmentsFromBlock ext block nHeight = .error "bad-qc-dup"
        ↔ ¬ ((blockCommitments ext block).map CFinalCommitment.llmqType).Nodup)
    ∧ (blockCommitments ext block ≠ [] →
        ((blockCommitments ext block).map CFinalCommitment.llmqType).Nodup →
        nHeight < ext.DIP0003Height →
          GetCommitmentsFromBlock ext block nHeight = .error "bad-qc-premature")
    ∧ (∀ ret, GetCommitmentsFromBlock ext block nHeight = .ok ret →
        ret.Perm ((blockCommitments ext block).map (fun c => (c.llmqType, c)))
          ∧ ret.Pairwise (fun a b => a.1 < b.1)) := by
  have hloop := loop_ok_iff (blockCommitments ext block) []
  simp only [List.map_nil, List.not_mem_nil, not_false_eq_true, implies_true, and_true] at hloop
  rw [GetCommitmentsFromBlock_eq]
  by_cases hpay : block.nVersion = ext.SYSCOIN_TX_VERSION_MN_QUORUM_COMMITMENT ∧ block.payload = none
  · have hbc : blockCommitments ext block = [] := by
      simp [blockCommitments, hpay.1, hpay.2]
    rw [if_pos hpay, hbc]
    refine ⟨?_, ?_, ?_⟩
    · simp
    · intro h; exact absurd rfl h
    · intro ret h; cases h
  · rw [if_neg hpay]
    cases hl : GetCommitmentsFromBlock.loop (blockCommitments ext block) [] with
    | error e =>
      have he := loop_error hl
      subst he
      have hnd : ¬ ((blockCommitments ext block).map CFinalCommitment.llmqType).Nodup := by
        intro hnd
        obtain ⟨r, hr⟩ := hloop.2 hnd
        rw [hl] at hr; cases hr
      refine ⟨?_, ?_, ?_⟩
      · simp [hnd]
      · intro _ h; exact absurd h hnd
      · intro ret h; cases h
    | ok ret =>
      have hnd : ((blockCommitments ext block).map CFinalCommitment.llmqType).Nodup :=
        hloop.1 ⟨ret, hl⟩
      obtain ⟨hperm, hsorted⟩ := loop_ok_perm hl
      simp only [List.nil_append] at hperm
      have hsorted := hsorted List.Pairwise.nil
      refine ⟨?_, ?_, ?_⟩
      · simp only [hnd, not_true_eq_false, iff_false]
        split_ifs <;> simp
      · intro hne _ hlt
        have hret : ret.isEmpty = false := by
          cases ret with
          | nil =>
            have := hperm.length_eq
            simp only [List.length_nil, List.length_map] at this
            exact absurd (List.length_eq_zero.1 this.symm) hne
          | cons a l => rfl
        have hact : decide (nHeight ≥ toUInt32 ext.DIP0003Height) = false := by
          simp only [decide_eq_false_iff_not, ge_iff_le, not_le, toUInt32]
          omega
        simp [hret, hact]
      · intro ret' h
        simp only at h
        split_ifs at h
        simp only [Except.ok.injEq] at h
        subst h
        exact ⟨hperm, hsorted⟩


/-- Witness of C8: two commitments of different types at height 5, below the
`DIP0003Height` 10 of `exampleExternals`. -/
theorem GetCommitmentsFromBlock_spec_witness :
    GetCommitmentsFromBlock exampleExternals ⟨90, some [⟨2, 1000, 0⟩, ⟨1, 1000, 0⟩], 77⟩ 5
      = .error "bad-qc-premature" :=
  (GetCommitmentsFromBlock_spec exampleExternals ⟨90, some [⟨2, 1000, 0⟩, ⟨1, 1000, 0⟩], 77⟩ 5
    (by decide) (by decide)).2.1 (by decide) (by decide) (by decide)

/-- Counterexample to C8 as stated: a payload with two commitments of type 1 at height 5,
below `DIP0003Height` 10. Commitments are present below `DIP0003Height`, yet the call
fails with 'bad-qc-dup' and not with 'bad-qc-premature': the duplicate is found in the
loop, before the height is looked at. -/
theorem GetCommitmentsFromBlock_premature_counterexample :
    blockCommitments exampleExternals ⟨90, some [⟨1, 1000, 0⟩, ⟨1, 1000, 5⟩], 77⟩ ≠ []
    ∧ (5 : Int) < exampleExternals.DIP0003Height
    ∧ GetCommitmentsFromBlock exampleExternals ⟨90, some [⟨1, 1000, 0⟩, ⟨1, 1000, 5⟩], 77⟩ 5
        = .error "bad-qc-dup"
    ∧ GetCommitmentsFromBlock exampleExternals ⟨90, some [⟨1, 1000, 0⟩, ⟨1, 1000, 5⟩], 77⟩ 5
        ≠ .error "bad-qc-premature" := by
  refine ⟨by decide, by decide, by decide, by decide⟩


section
variable {DbC DbH : Type}

theorem mapAt_isSome_of_mem {K V : Type} [DecidableEq K] (m : List (K × V)) (e : K × V)
    (he : e ∈ m) : ∃ v, mapAt m e.1 = some v := by
  induction m with
  | nil => simp at he
  | cons q rest ih =>
    by_cases hq : q.1 = e.1
    · exact ⟨q.2, by simp [mapAt, List.find?, hq]⟩
    · rcases List.mem_cons.1 he with h | h
      · exact absurd (h ▸ rfl) hq
      · obtain ⟨v, hv⟩ := ih h
        refine ⟨v, ?_⟩
        simp only [mapAt] at hv
        simp [mapAt, List.find?, hq, hv]

theorem mapAt_isSome_of_count {K V : Type} [DecidableEq K] (m : List (K × V)) (k : K)
    (hk : mapCount m k ≠ 0) : ∃ v, mapAt m k = some v := by
  obtain ⟨e, he, hek⟩ := List.mem_map.1 ((mapCount_ne_zero m k).1 hk)
  exact hek ▸ mapAt_isSome_of_mem m e he

theorem IsCommitmentRequired_flag (ext : Externals DbC DbH) (p : CQuorumBlockProcessor DbC DbH)
    (b : Bool) (t : Nat) (h : Int) :
    IsCommitmentRequired ext { p with bls_legacy_scheme := b } t h
      = IsCommitmentRequired ext p t h := rfl

theorem checkTypes_skip (ext : Externals DbC DbH) (p : CQuorumBlockProcessor DbC DbH)
    (qcs : List (Nat × CFinalCommitment)) (h : Int) (hTip : ext.ActiveTip = true)
    (pre rest : List (Nat × LLMQParams))
    (hpre : ∀ e ∈ pre, ∃ b, IsCommitmentRequired ext p e.1 h = some b
      ∧ (mapCount qcs e.1 ≠ 0 ↔ b = true)) :
    ProcessBlock.checkTypes ext p qcs h (pre ++ rest) = ProcessBlock.checkTypes ext p qcs h rest := by
  induction pre with
  | nil => rfl
  | cons e pre ih =>
    obtain ⟨b, hb, he⟩ := hpre e (List.mem_cons_self _ _)
    have ih' := ih (fun x hx => hpre x (List.mem_cons_of_mem _ hx))
    rw [List.cons_append]
    simp only [ProcessBlock.checkTypes, hTip, hb, Bool.not_true, Bool.false_eq_true, if_false]
    by_cases hc : mapCount qcs e.1 ≠ 0
    · have hbt : b = true := he.1 hc
      subst hbt
      simp [hc, ih']
    · have hbf : b = false := by
        cases b
        · rfl
        · exact absurd (he.2 rfl) hc
      subst hbf
      simp only [ne_eq, not_not] at hc
      simp [hc, ih']

theorem checkTypes_accept (ext : Externals DbC DbH) (p : CQuorumBlockProcessor DbC DbH)
    (qcs : List (Nat × CFinalCommitment)) (h : Int) (hTip : ext.ActiveTip = true)
    (l : List (Nat × LLMQParams))
    (hl : ProcessBlock.checkTypes ext p qcs h l = some none) :
    ∀ e ∈ l, ∃ b, IsCommitmentRequired ext p e.1 h = some b
      ∧ (mapCount qcs e.1 ≠ 0 ↔ b = true) := by
  induction l with
  | nil => intro e he; simp at he
  | cons e rest ih =>
    cases hb : IsCommitmentRequired ext p e.1 h with
    | none => simp [ProcessBlock.checkTypes, hTip, hb] at hl
    | some b =>
      simp only [ProcessBlock.checkTypes, hTip, hb, Bool.not_true, Bool.false_eq_true,
        if_false] at hl
      intro x hx
      by_cases hc : mapCount qcs e.1 ≠ 0
      · cases b
        · simp [hc] at hl
        · simp only [hc, not_false_eq_true, decide_True, Bool.not_true, Bool.and_false,
            Bool.false_eq_true, if_false, Bool.false_and, decide_not, ne_eq] at hl
          rcases List.mem_cons.1 hx with hxe | hxr
          · subst hxe; exact ⟨true, hb, by simp [hc]⟩
          · exact ih hl x hxr
      · cases b
        · simp only [ne_eq, not_not] at hc
          simp only [hc, ne_eq, not_true_eq_false, decide_False, Bool.false_and,
            Bool.false_eq_true, if_false, Bool.not_false, Bool.and_false] at hl
          rcases List.mem_cons.1 hx with hxe | hxr
          · subst hxe; exact ⟨false, hb, by simp [hc]⟩
          · exact ih hl x hxr
        · simp [hc] at hl

theorem mapCount_qcs_iff (ext : Externals DbC DbH) (block : CBlock) (nHeight : Int)
    (qcs : List (Nat × CFinalCommitment))
    (hq : GetCommitmentsFromBlock ext block nHeight = .ok qcs) (t : Nat) :
    mapCount qcs t ≠ 0 ↔ ∃ c ∈ blockCommitments ext block, c.llmqType = t := by
  rw [GetCommitmentsFromBlock_eq] at hq
  split_ifs at hq with hpay
  cases hl : GetCommitmentsFromBlock.loop (blockCommitments ext block) [] with
  | error e => rw [hl] at hq; cases hq
  | ok ret =>
    rw [hl] at hq
    simp only at hq
    split_ifs at hq
    simp only [Except.ok.injEq] at hq
    subst hq
    have hperm := (loop_ok_perm hl).1
    simp only [List.nil_append] at hperm
    rw [mapCount_ne_zero, (hperm.map Prod.fst).mem_iff]
    simp

end


/-- C7 (amended): with BLS checks enabled, DIP0003 active and an active chain tip,
whenever `ProcessBlock` returns true, `IsCommitmentRequired(type, height)` has returned for
every configured LLMQ type, and the block has a (possibly null) commitment of that type if
and only if it returned true. When the commitments of the block are read without error,
the block is rejected at the first configured type, in key order, that breaks this rule
(for every type before it `IsCommitmentRequired` returns, without a trap in a `%` by a
`dkgInterval` of 0, and the rule is kept): with 'bad-qc-not-allowed' if its commitment is
present and `IsCommitmentRequired` returns false, with 'bad-qc-missing' if it is missing
and `IsCommitmentRequired` returns true. -/
theorem ProcessBlock_presence_rule {DbC DbH : Type} (ext : Externals DbC DbH)
    (p : CQuorumBlockProcessor DbC DbH) (block : CBlock) (pindex : CBlockIndex)
    (fJustCheck : Bool)
    (hD : pindex.nHeight ≥ ext.DIP0003Height) (hTip : ext.ActiveTip = true) :
    (∀ p', ProcessBlock ext p block pindex fJustCheck true = some (.accepted, p') →
        ∀ entry ∈ ext.llmqs,
          (∃ b, IsCommitmentRequired ext p entry.1 pindex.nHeight = some b)
          ∧ ((∃ c ∈ blockCommitments ext block, c.llmqType = entry.1)
            ↔ IsCommitmentRequired ext p entry.1 pindex.nHeight = some true))
    ∧ (∀ qcs pprevHeight pre entry post,
        GetCommitmentsFromBlock ext block (toUInt32 pindex.nHeight) = .ok qcs →
        pindex.pprev = some pprevHeight →
        ext.llmqs = pre ++ entry :: post →
        (∀ e ∈ pre, (∃ b, IsCommitmentRequired ext p e.1 pindex.nHeight = some b)
          ∧ ((∃ c ∈ blockCommitments ext block, c.llmqType = e.1)
            ↔ IsCommitmentRequired ext p e.1 pindex.nHeight = some true)) →
        (((∃ c ∈ blockCommitments ext block, c.llmqType = entry.1)
            ∧ IsCommitmentRequired ext p entry.1 pindex.nHeight = some false) →
          (ProcessBlock ext p block pindex fJustCheck true).map Prod.fst
            = some (.rejected "bad-qc-not-allowed"))
        ∧ (((¬ ∃ c ∈ blockCommitments ext block, c.llmqType = entry.1)
            ∧ IsCommitmentRequired ext p entry.1 pindex.nHeight = some true) →
          (ProcessBlock ext p block pindex fJustCheck true).map Prod.fst
            = some (.rejected "bad-qc-missing"))) := by
  have hact : decide (pindex.nHeight ≥ ext.DIP0003Height) = true := by simpa using hD
  constructor
  · intro p' hacc entry hentry
    simp only [ProcessBlock] at hacc
    cases hprev : pindex.pprev with
    | none => simp [hprev] at hacc
    | some h0 =>
      simp only [hprev, hact, Bool.not_true, Bool.or_self, Bool.false_eq_true, if_false] at hacc
      cases hq : GetCommitmentsFromBlock ext block (toUInt32 pindex.nHeight) with
      | error r => simp [hq] at hacc
      | ok qcs =>
        simp only [hq] at hacc
        rw [← mapCount_qcs_iff ext block _ qcs hq]
        have fin : (∃ b, IsCommitmentRequired ext p entry.1 pindex.nHeight = some b
            ∧ (mapCount qcs entry.1 ≠ 0 ↔ b = true)) →
            (∃ b, IsCommitmentRequired ext p entry.1 pindex.nHeight = some b)
            ∧ (mapCount qcs entry.1 ≠ 0
              ↔ IsCommitmentRequired ext p entry.1 pindex.nHeight = some true) := by
          rintro ⟨b, hb, hiff⟩
          refine ⟨⟨b, hb⟩, ?_⟩
          rw [hb, hiff]
          simp
        by_cases hv : ext.IsV19Active h0 = true
        · simp only [hv, if_true] at hacc
          rw [← IsCommitmentRequired_flag ext p false]
          rw [← IsCommitmentRequired_flag ext p false] at fin
          cases hc : ProcessBlock.checkTypes ext { p with bls_legacy_scheme := false } qcs
              pindex.nHeight ext.llmqs with
          | none => simp [hc] at hacc
          | some o =>
            cases o with
            | some r => simp [hc] at hacc
            | none => exact fin (checkTypes_accept ext _ qcs _ hTip _ hc entry hentry)
        · simp only [hv, Bool.false_eq_true, if_false] at hacc
          cases hc : ProcessBlock.checkTypes ext p qcs pindex.nHeight ext.llmqs with
          | none => simp [hc] at hacc
          | some o =>
            cases o with
            | some r => simp [hc] at hacc
            | none => exact fin (checkTypes_accept ext _ qcs _ hTip _ hc entry hentry)
  · intro qcs h0 pre entry post hq hprev hsplit hpre
    have key : ∀ p₁ : CQuorumBlockProcessor DbC DbH,
        (∀ t h, IsCommitmentRequired ext p₁ t h = IsCommitmentRequired ext p t h) →
        (((∃ c ∈ blockCommitments ext block, c.llmqType = entry.1)
            ∧ IsCommitmentRequired ext p entry.1 pindex.nHeight = some false) →
          ProcessBlock.checkTypes ext p₁ qcs pindex.nHeight ext.llmqs
            = some (some "bad-qc-not-allowed"))
        ∧ (((¬ ∃ c ∈ blockCommitments ext block, c.llmqType = entry.1)
            ∧ IsCommitmentRequired ext p entry.1 pindex.nHeight = some true) →
          ProcessBlock.checkTypes ext p₁ qcs pindex.nHeight ext.llmqs
            = some (some "bad-qc-missing")) := by
      intro p₁ hp₁
      have hpre' : ∀ e ∈ pre, ∃ b, IsCommitmentRequired ext p₁ e.1 pindex.nHeight = some b
          ∧ (mapCount qcs e.1 ≠ 0 ↔ b = true) := by
        intro e he
        obtain ⟨⟨b, hb⟩, hiff⟩ := hpre e he
        refine ⟨b, by rw [hp₁]; exact hb, ?_⟩
        rw [mapCount_qcs_iff ext block _ qcs hq, hiff, hb]
        simp
      rw [hsplit, checkTypes_skip ext p₁ qcs _ hTip pre _ hpre']
      constructor
      · rintro ⟨hpres, hreq⟩
        have hc := (mapCount_qcs_iff ext block _ qcs hq entry.1).2 hpres
        simp [ProcessBlock.checkTypes, hTip, hp₁, hreq, hc]
      · rintro ⟨hpres, hreq⟩
        have hc : mapCount qcs entry.1 = 0 := by
          by_contra hne
          exact hpres ((mapCount_qcs_iff ext block _ qcs hq entry.1).1 hne)
        simp [ProcessBlock.checkTypes, hTip, hp₁, hreq, hc]
    simp only [ProcessBlock, hprev, hact, Bool.not_true, Bool.or_self, Bool.false_eq_true,
      if_false, hq]
    by_cases hv : ext.IsV19Active h0 = true
    · simp only [hv, if_true]
      obtain ⟨k1, k2⟩ := key { p with bls_legacy_scheme := false } (fun _ _ => rfl)
      exact ⟨fun h => by rw [k1 h]; rfl, fun h => by rw [k2 h]; rfl⟩
    · simp only [hv, Bool.false_eq_true, if_false]
      obtain ⟨k1, k2⟩ := key p (fun _ _ => rfl)
      exact ⟨fun h => by rw [k1 h]; rfl, fun h => by rw [k2 h]; rfl⟩

/-- Witness of C7: at height 12 type 1 is in its mining window and type 2 is not. A block
with a null commitment of type 1 is accepted, so the rule holds for both types; a block
without any commitment is rejected with 'bad-qc-missing' at type 1; a block with a
commitment of each type keeps the rule at type 1 and is rejected with 'bad-qc-not-allowed'
at type 2. -/
theorem ProcessBlock_presence_rule_witness :
    (∀ entry ∈ exampleExternals.llmqs,
      (∃ b, IsCommitmentRequired exampleExternals exampleProcessor entry.1 12 = some b)
      ∧ ((∃ c ∈ blockCommitments exampleExternals ⟨90, some [⟨1, 1000, 0⟩], 77⟩,
          c.llmqType = entry.1)
        ↔ IsCommitmentRequired exampleExternals exampleProcessor entry.1 12 = some true))
    ∧ (ProcessBlock exampleExternals exampleProcessor ⟨90, some [], 77⟩ ⟨12, some 11⟩ false
          true).map Prod.fst = some (.rejected "bad-qc-missing")
    ∧ (ProcessBlock exampleExternals exampleProcessor
          ⟨90, some [⟨1, 1000, 0⟩, ⟨2, 1000, 0⟩], 77⟩ ⟨12, some 11⟩ false
          true).map Prod.fst = some (.rejected "bad-qc-not-allowed") :=
  ⟨(ProcessBlock_presence_rule exampleExternals exampleProcessor ⟨90, some [⟨1, 1000, 0⟩], 77⟩
      ⟨12, some 11⟩ false (by decide) rfl).1 exampleProcessor rfl,
   ((ProcessBlock_presence_rule exampleExternals exampleProcessor ⟨90, some [], 77⟩
      ⟨12, some 11⟩ false (by decide) rfl).2 [] 11 [] (1, ⟨1, 24, 10, 18⟩)
      [(2, ⟨2, 24, 20, 22⟩)] rfl rfl rfl (by simp)).2 ⟨by decide, by decide⟩,
   ((ProcessBlock_presence_rule exampleExternals exampleProcessor
      ⟨90, some [⟨1, 1000, 0⟩, ⟨2, 1000, 0⟩], 77⟩
      ⟨12, some 11⟩ false (by decide) rfl).2 [(1, ⟨1, 1000, 0⟩), (2, ⟨2, 1000, 0⟩)] 11
      [(1, ⟨1, 24, 10, 18⟩)] (2, ⟨2, 24, 20, 22⟩) [] rfl rfl rfl (by decide)).1
      ⟨by decide, by decide⟩⟩

/-- Counterexample to C7 as stated: at height 12 the block carries a commitment of type 2,
which is configured and not required, and none of type 1, which is required. The
commitment present when not required is not rejected with 'bad-qc-not-allowed': the loop
reaches type 1 first and rejects the block with 'bad-qc-missing'. -/
theorem ProcessBlock_reason_counterexample :
    exampleExternals.ActiveTip = true
    ∧ (12 : Int) ≥ exampleExternals.DIP0003Height
    ∧ (2, (⟨2, 24, 20, 22⟩ : LLMQParams)) ∈ exampleExternals.llmqs
    ∧ (∃ c ∈ blockCommitments exampleExternals ⟨90, some [⟨2, 1000, 0⟩], 77⟩, c.llmqType = 2)
    ∧ IsCommitmentRequired exampleExternals exampleProcessor 2 12 = some false
    ∧ (ProcessBlock exampleExternals exampleProcessor ⟨90, some [⟨2, 1000, 0⟩], 77⟩
          ⟨12, some 11⟩ false true).map Prod.fst = some (.rejected "bad-qc-missing")
    ∧ (ProcessBlock exampleExternals exampleProcessor ⟨90, some [⟨2, 1000, 0⟩], 77⟩
          ⟨12, some 11⟩ false true).map Prod.fst ≠ some (.rejected "bad-qc-not-allowed") := by
  refine ⟨rfl, by decide, by decide, by decide, by decide, by decide, by decide⟩

end LLMQ

/-! ### `src/wallet/receive.cpp` -/

namespace Wallet

section
variable {Script Dest : Type}

/-- C12: `ScriptIsChange` returns true if and only if `wallet.IsMine(script)` is
non-zero and either no destination can be extracted from the script or the extracted
destination has no address book entry. -/
theorem ScriptIsChange_iff (wallet : CWallet Script Dest) (script : Script) :
    ScriptIsChange wallet script = true
      ↔ (wallet.IsMine script ≠ 0
          ∧ (wallet.ExtractDestination script = none
              ∨ ∃ address, wallet.ExtractDestination script = some address
                  ∧ wallet.FindAddressBookEntry address = false)) := by
  unfold ScriptIsChange
  by_cases hm : wallet.IsMine script = 0
  · simp [hm]
  · cases hd : wallet.ExtractDestination script with
    | none => simp [hm]
    | some address =>
      cases hf : wallet.FindAddressBookEntry address <;> simp [hm, hf]


theorem toInt64_of_range (x : Int) (h0 : 0 ≤ x) (h1 : x < 2 ^ 63) : toInt64 x = x := by
  simp only [toInt64]
  omega

theorem changeSum_cons (wallet : CWallet Script Dest) (o : CTxOut Script)
    (outs : List (CTxOut Script)) :
    changeSum wallet (o :: outs)
      = (if OutputIsChange wallet o then o.nValue else 0) + changeSum wallet outs := by
  unfold changeSum
  by_cases h : OutputIsChange wallet o = true
  · simp [List.filter_cons, h]
  · simp [List.filter_cons, h]

theorem TxGetChange_loop_spec (wallet : CWallet Script Dest) (MAX_MONEY : Int)
    (hMR : ∀ v, wallet.MoneyRange v = true ↔ (0 ≤ v ∧ v ≤ MAX_MONEY))
    (hMax : MAX_MONEY < 2 ^ 62) (outs : List (CTxOut Script)) :
    ∀ nChange : Int, 0 ≤ nChange → nChange ≤ MAX_MONEY →
      (∀ r, TxGetChange.loop wallet outs nChange = .ok r →
          r = nChange + changeSum wallet outs ∧ 0 ≤ r ∧ r ≤ MAX_MONEY)
      ∧ ((∃ m, TxGetChange.loop wallet outs nChange = .error m)
          ↔ ((∃ o ∈ outs, wallet.MoneyRange o.nValue = false)
              ∨ ∃ k, k ≤ outs.length
                  ∧ wallet.MoneyRange (nChange + changeSum wallet (outs.take k)) = false))
      ∧ (∀ m, TxGetChange.loop wallet outs nChange = .error m →
          m = "OutputGetChange: value out of range" ∨ m = "TxGetChange: value out of range") := by
  induction outs with
  | nil =>
    intro n h0 h1
    have hn : wallet.MoneyRange n = true := (hMR n).2 ⟨h0, h1⟩
    refine ⟨?_, ?_, ?_⟩
    · intro r hr
      simp only [TxGetChange.loop, Except.ok.injEq] at hr
      subst hr
      simp [changeSum, h0, h1]
    · simp [TxGetChange.loop, changeSum, hn]
    · intro m hm
      simp [TxGetChange.loop] at hm
  | cons o rest ih =>
    intro n h0 h1
    have hn : wallet.MoneyRange n = true := (hMR n).2 ⟨h0, h1⟩
    by_cases hv : wallet.MoneyRange o.nValue = true
    · obtain ⟨hv0, hv1⟩ := (hMR _).1 hv
      have hc0 : 0 ≤ (if OutputIsChange wallet o = true then o.nValue else 0) := by
        split_ifs <;> omega
      have hc1 : (if OutputIsChange wallet o = true then o.nValue else 0) ≤ MAX_MONEY := by
        split_ifs <;> omega
      have hwrap : toInt64 (n + (if OutputIsChange wallet o = true then o.nValue else 0))
          = n + (if OutputIsChange wallet o = true then o.nValue else 0) :=
        toInt64_of_range _ (by omega) (by omega)
      have hloop : TxGetChange.loop wallet (o :: rest) n
          = if !wallet.MoneyRange (n + (if OutputIsChange wallet o = true then o.nValue else 0))
            then .error "TxGetChange: value out of range"
            else TxGetChange.loop wallet rest
              (n + (if OutputIsChange wallet o = true then o.nValue else 0)) := by
        simp only [TxGetChange.loop, OutputGetChange, hv, Bool.not_true, Bool.false_eq_true,
          if_false, hwrap]
      rw [hloop]
      by_cases hs : wallet.MoneyRange
          (n + (if OutputIsChange wallet o = true then o.nValue else 0)) = true
      · obtain ⟨hs0, hs1⟩ := (hMR _).1 hs
        obtain ⟨ih1, ih2, ih3⟩ := ih _ hs0 hs1
        simp only [hs, Bool.not_true, Bool.false_eq_true, if_false]
        refine ⟨?_, ?_, ih3⟩
        · intro r hr
          obtain ⟨e1, e2, e3⟩ := ih1 r hr
          refine ⟨?_, e2, e3⟩
          rw [e1, changeSum_cons]; ring
        · rw [ih2]
          constructor
          · rintro (⟨o', ho', hb⟩ | ⟨k, hk, hb⟩)
            · exact Or.inl ⟨o', List.mem_cons_of_mem _ ho', hb⟩
            · refine Or.inr ⟨k + 1, by simpa using hk, ?_⟩
              rw [List.take_succ_cons, changeSum_cons, ← add_assoc]
              exact hb
          · rintro (⟨o', ho', hb⟩ | ⟨k, hk, hb⟩)
            · rcases List.mem_cons.1 ho' with h | h
              · subst h; rw [hv] at hb; cases hb
              · exact Or.inl ⟨o', h, hb⟩
            · cases k with
              | zero =>
                simp only [List.take_zero, changeSum, List.filter_nil, List.map_nil,
                  List.sum_nil, add_zero] at hb
                rw [hn] at hb; cases hb
              | succ k =>
                refine Or.inr ⟨k, by simpa using hk, ?_⟩
                rw [List.take_succ_cons, changeSum_cons, ← add_assoc] at hb
                exact hb
      · have hs' : wallet.MoneyRange
            (n + (if OutputIsChange wallet o = true then o.nValue else 0)) = false := by
          simpa using hs
        simp only [hs', Bool.not_false, if_true]
        refine ⟨?_, ?_, ?_⟩
        · intro r hr; cases hr
        · refine ⟨fun _ => Or.inr ⟨1, by simp, ?_⟩, fun _ => ⟨_, rfl⟩⟩
          rw [List.take_succ_cons, List.take_zero, changeSum_cons]
          simpa [changeSum] using hs'
        · intro m hm
          injection hm with hm
          exact Or.inr hm.symm
    · have hv' : wallet.MoneyRange o.nValue = false := by simpa using hv
      have hloop : TxGetChange.loop wallet (o :: rest) n
          = .error "OutputGetChange: value out of range" := by
        simp only [TxGetChange.loop, OutputGetChange, hv', Bool.not_false, if_true]
      rw [hloop]
      refine ⟨?_, ?_, ?_⟩
      · intro r hr; cases hr
      · exact ⟨fun _ => Or.inl ⟨o, List.mem_cons_self _ _, hv'⟩, fun _ => ⟨_, rfl⟩⟩
      · intro m hm
        injection hm with hm
        exact Or.inl hm.symm

/-- C11: let `MoneyRange v` mean `0 ≤ v ≤ MAX_MONEY`, for a `MAX_MONEY` that is not
negative and below 2^62 (so that no sum of two amounts in range leaves `int64_t`). Then
`TxGetChange` returns the sum of `txout.nValue` over exactly the outputs for which
`OutputIsChange` holds; it throws if and only if some output's value (change or not) is
outside `MoneyRange` or some running sum of change is outside `MoneyRange`, and the
message of the exception ends in 'value out of range'; every value it returns lies in
`[0, MAX_MONEY]`. -/
theorem TxGetChange_spec (wallet : CWallet Script Dest) (tx : CTransaction Script)
    (MAX_MONEY : Int)
    (hMR : ∀ v, wallet.MoneyRange v = true ↔ (0 ≤ v ∧ v ≤ MAX_MONEY))
    (hMin : 0 ≤ MAX_MONEY) (hMax : MAX_MONEY < 2 ^ 62) :
    (∀ r, TxGetChange wallet tx = .ok r →
        r = changeSum wallet tx.vout ∧ 0 ≤ r ∧ r ≤ MAX_MONEY)
    ∧ ((∃ m, TxGetChange wallet tx = .error m)
        ↔ ((∃ o ∈ tx.vout, wallet.MoneyRange o.nValue = false)
            ∨ ∃ k, k ≤ tx.vout.length
                ∧ wallet.MoneyRange (changeSum wallet (tx.vout.take k)) = false))
    ∧ (∀ m, TxGetChange wallet tx = .error m →
        m = "OutputGetChange: value out of range" ∨ m = "TxGetChange: value out of range") := by
  have h := TxGetChange_loop_spec wallet MAX_MONEY hMR hMax tx.vout 0 le_rfl hMin
  simpa only [TxGetChange, zero_add] using h

end

/-- Witness of C11: outputs of 5 (ours, no destination), 7 (ours, in the address book)
and 3 (not ours); the change is 5. -/
theorem TxGetChange_spec_witness :
    (5 : Int) = changeSum exampleWallet
        [⟨5, 1⟩, ⟨7, 2⟩, (⟨3, 20⟩ : CTxOut Nat)]
      ∧ (0 : Int) ≤ 5 ∧ (5 : Int) ≤ 2100000000000000 :=
  (TxGetChange_spec exampleWallet ⟨[⟨5, 1⟩, ⟨7, 2⟩, ⟨3, 20⟩]⟩ 2100000000000000
    (fun v => by simp [exampleWallet]) (by decide) (by decide)).1 5 (by decide)

end Wallet

/-! ### `src/llmq/quorums_blockprocessor.cpp`: minable and mined commitments -/

namespace LLMQ

theorem mapAt_cons {K V : Type} [DecidableEq K] (q : K × V) (m : List (K × V)) (k : K) :
    mapAt (q :: m) k = if q.1 = k then some q.2 else mapAt m k := by
  by_cases h : q.1 = k <;> simp [mapAt, List.find?, h]

theorem mapAt_eq_none_of_count {K V : Type} [DecidableEq K] (m : List (K × V)) (k : K)
    (h : mapCount m k = 0) : mapAt m k = none := by
  induction m with
  | nil => rfl
  | cons q rest ih =>
    have hq : ¬ q.1 = k := by
      intro hq
      exact (mapCount_ne_zero (q :: rest) k).2 (by simp [hq]) h
    have hrest : mapCount rest k = 0 := by
      by_contra hne
      exact (mapCount_ne_zero (q :: rest) k).2
        (List.mem_cons_of_mem _ ((mapCount_ne_zero rest k).1 hne)) h
    rw [mapAt_cons, if_neg hq, ih hrest]

theorem mapAt_append_singleton {K V : Type} [DecidableEq K] (m : List (K × V)) (k k₂ : K)
    (v : V) :
    mapAt (m ++ [(k, v)]) k₂ = (mapAt m k₂).or (if k = k₂ then some v else none) := by
  induction m with
  | nil => simp [mapAt_cons, mapAt]
  | cons q rest ih =>
    rw [List.cons_append, mapAt_cons, mapAt_cons]
    by_cases h : q.1 = k₂
    · simp [h]
    · simp [h, ih]

theorem mapAt_mapInsert {K V : Type} [DecidableEq K] (m : List (K × V)) (k k₂ : K) (v : V) :
    mapAt (mapInsert m k v) k₂
      = (mapAt m k₂).or (if k = k₂ ∧ mapCount m k = 0 then some v else none) := by
  unfold mapInsert
  by_cases hc : mapCount m k = 0
  · simp only [hc, ne_eq, not_true_eq_false, if_false, and_true]
    exact mapAt_append_singleton m k k₂ v
  · simp [hc]

theorem mapAt_mapErase {K V : Type} [DecidableEq K] (m : List (K × V)) (k k₂ : K) :
    mapAt (mapErase m k) k₂ = if k₂ = k then none else mapAt m k₂ := by
  induction m with
  | nil => simp [mapErase, mapAt]
  | cons q rest ih =>
    unfold mapErase at ih ⊢
    by_cases hq : q.1 = k
    · rw [List.filter_cons_of_neg (by simp [hq]), ih, mapAt_cons]
      by_cases h2 : k₂ = k
      · simp [h2]
      · have : ¬ q.1 = k₂ := fun e => h2 (e.symm.trans hq)
        simp [h2, this]
    · rw [List.filter_cons_of_pos (by simp [hq]), mapAt_cons, mapAt_cons, ih]
      by_cases h2 : q.1 = k₂
      · have : ¬ k₂ = k := fun e => hq (h2.trans e)
        simp [h2, this]
      · simp [h2]

theorem mapAt_mapAssign {K V : Type} [DecidableEq K] (m : List (K × V)) (k k₂ : K) (v : V) :
    mapAt (mapAssign m k v) k₂
      = if k₂ = k then (mapAt m k₂).map (fun _ => v) else mapAt m k₂ := by
  induction m with
  | nil => simp [mapAssign, mapAt]
  | cons q rest ih =>
    unfold mapAssign at ih ⊢
    rw [List.map_cons, mapAt_cons, mapAt_cons, ih]
    by_cases hq : q.1 = k
    · by_cases h2 : k₂ = k
      · subst h2; simp [hq]
      · have h3 : ¬ k = k₂ := fun e => h2 e.symm
        simp [hq, h2, h3]
    · by_cases h2 : q.1 = k₂
      · have : ¬ k₂ = k := fun e => hq (h2.trans e)
        simp [hq, h2, this]
      · simp [hq, h2]

theorem mapCount_eq_zero_of_mapAt {K V : Type} [DecidableEq K] (m : List (K × V)) (k : K)
    (h : mapAt m k = none) : mapCount m k = 0 := by
  by_contra hne
  obtain ⟨v, hv⟩ := mapAt_isSome_of_count m k hne
  rw [h] at hv; cases hv

section
variable {DbC DbH : Type}

theorem MinableConsistent_empty (ext : Externals DbC DbH) (p : CQuorumBlockProcessor DbC DbH)
    (h1 : p.minableCommitmentsByQuorum = []) (h2 : p.minableCommitments = []) :
    MinableConsistent ext p := by
  constructor
  · intro h qc hq; rw [h2] at hq; cases hq
  · intro q h hq; rw [h1] at hq; cases hq

theorem AddMineableCommitment_consistent (ext : Externals DbC DbH)
    (hinj : Function.Injective ext.SerializeHash) (CountSigners : CFinalCommitment → Int)
    (p : CQuorumBlockProcessor DbC DbH) (fqc : CFinalCommitment)
    (hp : MinableConsistent ext p) :
    ∃ p₂ relay, AddMineableCommitment ext CountSigners p fqc = some (p₂, relay)
      ∧ MinableConsistent ext p₂ := by
  obtain ⟨hA, hB⟩ := hp
  unfold AddMineableCommitment
  cases hidx : mapAt p.minableCommitmentsByQuorum fqc.quorumHash with
  | none =>
    refine ⟨_, true, rfl, ?_, ?_⟩
    · intro h qc hq
      simp only [mapAt_mapInsert] at hq
      cases hold : mapAt p.minableCommitments h with
      | some c =>
        rw [hold] at hq
        simp only [Option.or_some, Option.some.injEq] at hq
        subst hq
        exact hA h c hold
      | none =>
        rw [hold] at hq
        simp only [Option.none_or] at hq
        split_ifs at hq with hc
        simp only [Option.some.injEq] at hq
        subst hq
        exact hc.1
    · intro q h hq
      simp only [mapAt_mapInsert] at hq ⊢
      cases hold : mapAt p.minableCommitmentsByQuorum q with
      | some h₁ =>
        rw [hold] at hq
        simp only [Option.or_some, Option.some.injEq] at hq
        subst hq
        obtain ⟨c, hc, hcq⟩ := hB q h₁ hold
        exact ⟨c, by simp [hc], hcq⟩
      | none =>
        rw [hold] at hq
        simp only [Option.none_or] at hq
        split_ifs at hq with hc
        simp only [Option.some.injEq] at hq
        subst hq
        obtain ⟨hqe, _⟩ := hc
        subst hqe
        cases hst : mapAt p.minableCommitments (ext.SerializeHash fqc) with
        | some c =>
          have := hinj (hA _ c hst)
          subst this
          exact ⟨c, by simp, rfl⟩
        | none =>
          exact ⟨fqc, by simp [mapCount_eq_zero_of_mapAt _ _ hst], rfl⟩
  | some known =>
    obtain ⟨oldFqc, hold, holdq⟩ := hB _ known hidx
    simp only [hold]
    split_ifs with hmore
    · refine ⟨_, true, rfl, ?_, ?_⟩
      · intro h qc hq
        simp only [mapAt_mapInsert, mapAt_mapErase] at hq
        by_cases hh : h = ext.SerializeHash fqc
        · subst hh
          have hcnt : mapCount (mapErase p.minableCommitments (ext.SerializeHash fqc))
              (ext.SerializeHash fqc) = 0 :=
            mapCount_eq_zero_of_mapAt _ _ (by simp [mapAt_mapErase])
          simp only [if_true, Option.none_or, hcnt, and_self, Option.some.injEq] at hq
          subst hq; rfl
        · have hne : ¬ ext.SerializeHash fqc = h := fun e => hh e.symm
          simp only [hh, if_false, hne, false_and] at hq
          cases hst : mapAt p.minableCommitments h with
          | some c => rw [hst] at hq; simp at hq; subst hq; exact hA h c hst
          | none => rw [hst] at hq; simp at hq
      · intro q h hq
        simp only [mapAt_mapAssign] at hq
        have hcnt : mapCount (mapErase p.minableCommitments (ext.SerializeHash fqc))
            (ext.SerializeHash fqc) = 0 :=
          mapCount_eq_zero_of_mapAt _ _ (by simp [mapAt_mapErase])
        by_cases hqq : q = fqc.quorumHash
        · subst hqq
          simp only [if_true, hidx, Option.map_some', Option.some.injEq] at hq
          subst hq
          exact ⟨fqc, by simp [mapAt_mapInsert, mapAt_mapErase, hcnt], rfl⟩
        · simp only [hqq, if_false] at hq
          obtain ⟨c, hc, hcq⟩ := hB q h hq
          have hne : h ≠ ext.SerializeHash fqc := by
            intro e
            subst e
            have := hinj (hA _ c hc)
            subst this
            exact hqq hcq.symm
          exact ⟨c, by simp [mapAt_mapInsert, mapAt_mapErase, hne, hc], hcq⟩
    · exact ⟨p, false, rfl, hA, hB⟩

theorem ProcessCommitment_maps (ext : Externals DbC DbH)
    (p p₂ : CQuorumBlockProcessor DbC DbH) (nHeight : Int) (blockHash : uint256)
    (qc : CFinalCommitment) (fJustCheck fBLSChecks : Bool) (v : Verdict)
    (hrun : ProcessCommitment ext p nHeight blockHash qc fJustCheck fBLSChecks = some (v, p₂)) :
    (p₂.minableCommitmentsByQuorum = p.minableCommitmentsByQuorum
        ∧ p₂.minableCommitments = p.minableCommitments)
    ∨ (p₂.minableCommitmentsByQuorum = mapErase p.minableCommitmentsByQuorum qc.quorumHash
        ∧ p₂.minableCommitments = mapErase p.minableCommitments (ext.SerializeHash qc)) := by
  have hkeep : ∀ w, some (w, p) = some (v, p₂) →
      (p₂.minableCommitmentsByQuorum = p.minableCommitmentsByQuorum
        ∧ p₂.minableCommitments = p.minableCommitments) := by
    intro w hw
    simp only [Option.some.injEq, Prod.mk.injEq] at hw
    rw [← hw.2]; exact ⟨rfl, rfl⟩
  simp only [ProcessCommitment] at hrun
  cases hg : GetQuorumBlockHash ext qc.llmqType nHeight with
  | none =>
    simp only [hg] at hrun
    repeat' split at hrun
    all_goals first
      | exact Or.inl (hkeep _ hrun)
      | cases hrun
  | some computedHash =>
    simp only [hg] at hrun
    generalize (if (!ext.ActiveTip) = true then qc.quorumHash else computedHash) = Q at hrun
    repeat' split at hrun
    all_goals first
      | exact Or.inl (hkeep _ hrun)
      | (cases hrun; done)
      | skip
    have hnn : ¬ Q ≠ qc.quorumHash := by assumption
    simp only [Option.some.injEq, Prod.mk.injEq] at hrun
    obtain ⟨_, hp₂⟩ := hrun
    subst hp₂
    have hQ : Q = qc.quorumHash := Classical.not_not.1 hnn
    subst hQ
    exact Or.inr ⟨rfl, rfl⟩

theorem ProcessCommitment_consistent (ext : Externals DbC DbH)
    (hinj : Function.Injective ext.SerializeHash)
    (p p₂ : CQuorumBlockProcessor DbC DbH) (nHeight : Int) (blockHash : uint256)
    (qc : CFinalCommitment) (fJustCheck fBLSChecks : Bool) (v : Verdict)
    (hp : MinableConsistent ext p)
    (hrun : ProcessCommitment ext p nHeight blockHash qc fJustCheck fBLSChecks = some (v, p₂)) :
    MinableConsistent ext p₂ := by
  obtain ⟨hA, hB⟩ := hp
  rcases ProcessCommitment_maps ext p p₂ nHeight blockHash qc fJustCheck fBLSChecks v hrun
    with ⟨e1, e2⟩ | ⟨e1, e2⟩
  · constructor
    · intro h c hc; rw [e2] at hc; exact hA h c hc
    · intro q h hq
      rw [e1] at hq; rw [e2]; exact hB q h hq
  · constructor
    · intro h c hc
      rw [e2, mapAt_mapErase] at hc
      split_ifs at hc
      exact hA h c hc
    · intro q h hq
      rw [e1, mapAt_mapErase] at hq
      rw [e2]
      split_ifs at hq with hqq
      obtain ⟨c, hc, hcq⟩ := hB q h hq
      have hne : h ≠ ext.SerializeHash qc := by
        intro e
        subst e
        have := hinj (hA _ c hc)
        subst this
        exact hqq hcq.symm
      exact ⟨c, by simp [mapAt_mapErase, hne, hc], hcq⟩

end

section
variable {DbC DbH : Type}

/-- C13: `GetMinableCommitment` returns false, leaving `ret` as it was, if no commitment
should be mined (`IsCommitmentRequired` is false or the quorum hash is null). Otherwise it
returns true: with the null commitment built for `(llmqs.at(llmqType), quorumHash)`, its
version set by `GetVersion`, when `minableCommitmentsByQuorum` has no entry for the quorum
hash; with the stored minable commitment when the quorum hash has an entry and
`minableCommitments` holds the commitment it names, which is so for every entry when the
two maps fit together (`MinableConsistent`, kept by `AddMineableCommitment` and
`ProcessCommitment`). -/
theorem GetMinableCommitment_spec (ext : Externals DbC DbH) (ops : CommitmentOps)
    (p : CQuorumBlockProcessor DbC DbH) (llmqType : Nat) (nHeight : Int)
    (ret : CFinalCommitment) :
    ((IsCommitmentRequired ext p llmqType nHeight = some false
          ∨ GetQuorumBlockHash ext llmqType nHeight = some 0) →
        GetMinableCommitment ext ops p llmqType nHeight ret = some (false, ret))
    ∧ (IsCommitmentRequired ext p llmqType nHeight = some true →
        ∃ quorumHash, GetQuorumBlockHash ext llmqType nHeight = some quorumHash
        ∧ quorumHash ≠ 0
        ∧ (mapAt p.minableCommitmentsByQuorum quorumHash = none →
            ∃ params, mapAt ext.llmqs llmqType = some params
              ∧ GetMinableCommitment ext ops p llmqType nHeight ret
                  = some (true, ops.withVersion (ops.construct params quorumHash)
                      (ops.GetVersion (ext.IsV19Active nHeight))))
        ∧ (∀ commitmentHash qc,
            mapAt p.minableCommitmentsByQuorum quorumHash = some commitmentHash →
            mapAt p.minableCommitments commitmentHash = some qc →
            GetMinableCommitment ext ops p llmqType nHeight ret = some (true, qc))
        ∧ (MinableConsistent ext p →
            ∃ qc, GetMinableCommitment ext ops p llmqType nHeight ret = some (true, qc))) := by
  constructor
  · rintro (h | h)
    · simp only [GetMinableCommitment, h]
    · have hreq : IsCommitmentRequired ext p llmqType nHeight = some false := by
        simp only [IsCommitmentRequired, h, if_true]
      simp only [GetMinableCommitment, hreq]
  · intro hreq
    cases hg : GetQuorumBlockHash ext llmqType nHeight with
    | none => simp [IsCommitmentRequired, hg] at hreq
    | some quorumHash =>
      have hq : quorumHash ≠ 0 := by
        intro h0
        subst h0
        simp [IsCommitmentRequired, hg] at hreq
      have hcount : mapCount ext.llmqs llmqType ≠ 0 := by
        intro hc
        simp only [GetQuorumBlockHash, hc, if_true, Option.some.injEq] at hg
        exact hq hg.symm
      obtain ⟨params, hparams⟩ := mapAt_isSome_of_count _ _ hcount
      have hnull : mapAt p.minableCommitmentsByQuorum quorumHash = none →
          GetMinableCommitment ext ops p llmqType nHeight ret
            = some (true, ops.withVersion (ops.construct params quorumHash)
                (ops.GetVersion (ext.IsV19Active nHeight))) := by
        intro hnone
        simp only [GetMinableCommitment, hreq, hg, hq, if_false, hnone, hparams]
      have hstored : ∀ commitmentHash qc,
          mapAt p.minableCommitmentsByQuorum quorumHash = some commitmentHash →
          mapAt p.minableCommitments commitmentHash = some qc →
          GetMinableCommitment ext ops p llmqType nHeight ret = some (true, qc) := by
        intro commitmentHash qc hidx hqc
        simp only [GetMinableCommitment, hreq, hg, hq, if_false, hidx, hqc]
      refine ⟨quorumHash, rfl, hq, fun hnone => ⟨params, hparams, hnull hnone⟩, hstored, ?_⟩
      intro hcons
      cases hidx : mapAt p.minableCommitmentsByQuorum quorumHash with
      | none => exact ⟨_, hnull hidx⟩
      | some h =>
        obtain ⟨qc, hqc, _⟩ := hcons.2 _ h hidx
        exact ⟨qc, hstored h qc hidx hqc⟩

theorem heightsDown_mem (n : Nat) (h : Int) : h ∈ heightsDown n ↔ 0 ≤ h ∧ h < n := by
  induction n with
  | zero => simp only [heightsDown, List.not_mem_nil, false_iff]; omega
  | succ n ih =>
    simp only [heightsDown, List.mem_cons, ih]
    push_cast
    omega

theorem heightsDown_pairwise (n : Nat) : (heightsDown n).Pairwise (fun a b => a > b) := by
  induction n with
  | zero => exact List.Pairwise.nil
  | succ n ih =>
    exact List.pairwise_cons.2
      ⟨fun b hb => by have := (heightsDown_mem n b).1 hb; omega, ih⟩

theorem takeWhile_complete (P : Int → Bool) :
    ∀ (l : List Int), l.Pairwise (fun a b => a > b) → ∀ h ∈ l,
      h ∈ l.takeWhile P
      ∨ ∃ h' ∈ l, h ≤ h' ∧ P h' = false ∧ ∀ x ∈ l.takeWhile P, h' < x := by
  intro l
  induction l with
  | nil => intro _ h hh; simp at hh
  | cons a l ih =>
    intro hpw h hh
    rw [List.pairwise_cons] at hpw
    have hle : h ≤ a := by
      rcases List.mem_cons.1 hh with e | e
      · omega
      · have := hpw.1 h e; omega
    cases hP : P a with
    | false =>
      refine Or.inr ⟨a, List.mem_cons_self _ _, hle, hP, ?_⟩
      intro x hx
      simp [List.takeWhile, hP] at hx
    | true =>
      rcases List.mem_cons.1 hh with e | e
      · left; simp [List.takeWhile, hP, e]
      · rcases ih hpw.2 h e with hin | ⟨h', hm, h1, h2, h3⟩
        · left; simp [List.takeWhile, hP, hin]
        · refine Or.inr ⟨h', List.mem_cons_of_mem _ hm, h1, h2, ?_⟩
          intro x hx
          simp only [List.takeWhile, hP, List.mem_cons] at hx
          rcases hx with e' | e'
          · have := hpw.1 h' hm; omega
          · exact h3 x e'

theorem take_complete :
    ∀ (l : List Int) (m : Nat), l.Pairwise (fun a b => a > b) → ∀ h ∈ l,
      h ∈ l.take m ∨ ((l.take m).length = m ∧ ∀ x ∈ l.take m, h < x) := by
  intro l
  induction l with
  | nil => intro _ _ h hh; simp at hh
  | cons a l ih =>
    intro m hpw h hh
    rw [List.pairwise_cons] at hpw
    cases m with
    | zero => right; simp
    | succ m =>
      rcases List.mem_cons.1 hh with e | e
      · left; simp [e]
      · rcases ih m hpw.2 h e with hin | ⟨h1, h2⟩
        · left; simp [hin]
        · right
          refine ⟨by simp [h1], ?_⟩
          intro x hx
          simp only [List.take_succ_cons, List.mem_cons] at hx
          rcases hx with e' | e'
          · have := hpw.1 h e; omega
          · exact h2 x e'

theorem allSome_map_isSome {α β : Type} (f : α → Option β) (l : List α) :
    (∃ r, allSome (l.map f) = some r) ↔ ∀ a ∈ l, ∃ b, f a = some b := by
  induction l with
  | nil => simp [allSome]
  | cons a l ih =>
    simp only [List.map_cons, List.mem_cons, forall_eq_or_imp]
    cases hf : f a with
    | none => simp [allSome]
    | some b =>
      simp only [allSome, Option.map_eq_some', Option.some.injEq, exists_eq', true_and]
      rw [← ih]
      constructor
      · rintro ⟨r, r', hr', _⟩; exact ⟨r', hr'⟩
      · rintro ⟨r', hr'⟩; exact ⟨b :: r', r', hr', rfl⟩

theorem allSome_minedEntry (ext : Externals DbC DbH) (p : CQuorumBlockProcessor DbC DbH)
    (GetAncestor : Int → Option CBlockIndex) (hs : List Int) (tr : List (Int × CBlockIndex))
    (h : allSome (hs.map (minedEntry ext p GetAncestor)) = some tr) :
    tr.map Prod.fst = hs
    ∧ ∀ e ∈ tr, ∃ q, ext.inverseHeightDb.ReadCache p.m_inverse_height_evoDb e.1 = some q
        ∧ GetAncestor q = some e.2 := by
  induction hs generalizing tr with
  | nil =>
    simp only [List.map_nil, allSome, Option.some.injEq] at h
    subst h
    simp
  | cons a l ih =>
    rw [List.map_cons] at h
    cases hm : minedEntry ext p GetAncestor a with
    | none => rw [hm] at h; simp [allSome] at h
    | some e =>
      rw [hm] at h
      simp only [allSome, Option.map_eq_some'] at h
      obtain ⟨tr', htr', rfl⟩ := h
      obtain ⟨h1, h2⟩ := ih tr' htr'
      have he : e.1 = a ∧ ∃ q, ext.inverseHeightDb.ReadCache p.m_inverse_height_evoDb e.1
          = some q ∧ GetAncestor q = some e.2 := by
        simp only [minedEntry] at hm
        cases hr : ext.inverseHeightDb.ReadCache p.m_inverse_height_evoDb a with
        | none => simp [hr] at hm
        | some q =>
          cases ha : GetAncestor q with
          | none => simp [hr, ha] at hm
          | some idx =>
            simp only [hr, ha, Option.some.injEq] at hm
            subst hm
            exact ⟨rfl, q, hr, ha⟩
      refine ⟨by simp [he.1, h1], ?_⟩
      intro x hx
      rcases List.mem_cons.1 hx with e' | e'
      · subst e'; exact he.2
      · exact h2 x e'

theorem GetMinedCommitmentsUntilBlock_loop_eq (ext : Externals DbC DbH)
    (p : CQuorumBlockProcessor DbC DbH) (GetAncestor : Int → Option CBlockIndex)
    (maxCount : Nat) :
    ∀ (n : Nat) (currentHeight : Int) (ret : List (Int × CBlockIndex)),
      (currentHeight + 1).toNat = n →
      GetMinedCommitmentsUntilBlock.loop ext p GetAncestor maxCount currentHeight ret
        = (allSome (((((heightsDown n).filter
              (fun h => ext.inverseHeightDb.ExistsCache p.m_inverse_height_evoDb h)).takeWhile
              (fun h => (ext.inverseHeightDb.ReadCache p.m_inverse_height_evoDb h).isSome)).take
              (maxCount - ret.length)).map (minedEntry ext p GetAncestor))).map
            (fun l => ret ++ l) := by
  intro n
  induction n with
  | zero =>
    intro ch ret hn
    rw [GetMinedCommitmentsUntilBlock.loop.eq_1, if_neg (by omega)]
    simp [heightsDown, allSome]
  | succ n ih =>
    intro ch ret hn
    have hch : ch = (n : Int) := by omega
    subst hch
    rw [GetMinedCommitmentsUntilBlock.loop.eq_1]
    by_cases hlen : ret.length < maxCount
    · rw [if_pos ⟨by omega, hlen⟩]
      have ih' := fun r => ih ((n : Int) - 1) r (by omega)
      cases hE : ext.inverseHeightDb.ExistsCache p.m_inverse_height_evoDb (n : Int) with
      | false =>
        simp only [Bool.not_false, if_true, heightsDown, List.filter_cons, hE,
          Bool.false_eq_true, if_false]
        exact ih' ret
      | true =>
        simp only [Bool.not_true, Bool.false_eq_true, if_false, heightsDown, List.filter_cons,
          hE, if_true, List.takeWhile_cons]
        cases hR : ext.inverseHeightDb.ReadCache p.m_inverse_height_evoDb (n : Int) with
        | none => simp [allSome]
        | some q =>
          obtain ⟨k, hk⟩ : ∃ k, maxCount - ret.length = k + 1 := ⟨maxCount - ret.length - 1, by omega⟩
          simp only [Option.isSome_some, if_true, hk, List.take_succ_cons, List.map_cons,
            minedEntry, hR]
          cases hA : GetAncestor q with
          | none => simp [allSome]
          | some idx =>
            have hk' : maxCount - (ret ++ [((n : Int), idx)]).length = k := by
              simp only [List.length_append, List.length_singleton]; omega
            simp only [allSome, ih', hk', Option.map_map]
            congr 1
            funext l
            simp
    · rw [if_neg (by tauto)]
      have h0 : maxCount - ret.length = 0 := by omega
      simp [h0, allSome]

/-- C14: a run of `GetMinedCommitmentsUntilBlock` ends for every start height and
`maxCount` (the loop is a recursion on `currentHeight + 1`), and what it does is fixed by
the mining heights `minedHeights`: of the heights from `pindex->nHeight` down to 0 those
with an entry in `m_inverse_height_evoDb`, up to the first entry that cannot be read, at
most `maxCount` of them. The call returns exactly when `maxCount` is at most `max_size()`
(else `ret.reserve` throws) and every quorum height stored for one of these mining heights
has an ancestor (else the `assert` fails). What it returns has at most `maxCount` entries,
one for each of these mining heights in this order: the heights are strictly decreasing,
lie between 0 and the height of `pindex`, and each entry is the ancestor at the quorum
height stored for its mining height. No recorded height is left out but below a full
result or at or below an entry that cannot be read, so the entry at index 0 belongs to the
highest recorded height, the most recent one. -/
theorem GetMinedCommitmentsUntilBlock_spec (ext : Externals DbC DbH)
    (p : CQuorumBlockProcessor DbC DbH) (llmqType : Nat) (pindex : CBlockIndex)
    (GetAncestor : Int → Option CBlockIndex) (max_size maxCount : Nat) :
    GetMinedCommitmentsUntilBlock.trace ext p llmqType pindex GetAncestor max_size maxCount
      = (if maxCount > max_size then none
         else allSome ((minedHeights ext p pindex maxCount).map (minedEntry ext p GetAncestor)))
    ∧ ((∃ r, GetMinedCommitmentsUntilBlock ext p llmqType pindex GetAncestor max_size maxCount
          = some r)
        ↔ (maxCount ≤ max_size
            ∧ ∀ h ∈ minedHeights ext p pindex maxCount, ∀ q,
                ext.inverseHeightDb.ReadCache p.m_inverse_height_evoDb h = some q →
                ∃ idx, GetAncestor q = some idx))
    ∧ (∀ r, GetMinedCommitmentsUntilBlock ext p llmqType pindex GetAncestor max_size maxCount
          = some r →
        r.length ≤ maxCount
        ∧ ∃ tr, GetMinedCommitmentsUntilBlock.trace ext p llmqType pindex GetAncestor max_size
              maxCount = some tr
          ∧ r = tr.map Prod.snd
          ∧ tr.map Prod.fst = minedHeights ext p pindex maxCount
          ∧ (tr.map Prod.fst).Pairwise (fun a b => a > b)
          ∧ (∀ e ∈ tr, 0 ≤ e.1 ∧ e.1 ≤ pindex.nHeight
              ∧ ext.inverseHeightDb.ExistsCache p.m_inverse_height_evoDb e.1 = true
              ∧ ∃ q, ext.inverseHeightDb.ReadCache p.m_inverse_height_evoDb e.1 = some q
                  ∧ GetAncestor q = some e.2)
          ∧ (∀ h, 0 ≤ h → h ≤ pindex.nHeight →
              ext.inverseHeightDb.ExistsCache p.m_inverse_height_evoDb h = true →
              h ∈ tr.map Prod.fst
              ∨ (tr.length = maxCount ∧ ∀ e ∈ tr, h < e.1)
              ∨ (∃ h', h ≤ h' ∧ h' ≤ pindex.nHeight
                  ∧ ext.inverseHeightDb.ExistsCache p.m_inverse_height_evoDb h' = true
                  ∧ ext.inverseHeightDb.ReadCache p.m_inverse_height_evoDb h' = none
                  ∧ ∀ e ∈ tr, h' < e.1))
          ∧ (∀ e rest, tr = e :: rest → ∀ h, 0 ≤ h → h ≤ pindex.nHeight →
              ext.inverseHeightDb.ExistsCache p.m_inverse_height_evoDb h = true → h ≤ e.1)) := by
  have htrace : GetMinedCommitmentsUntilBlock.trace ext p llmqType pindex GetAncestor max_size
      maxCount
      = (if maxCount > max_size then none
         else allSome ((minedHeights ext p pindex maxCount).map
          (minedEntry ext p GetAncestor))) := by
    simp only [GetMinedCommitmentsUntilBlock.trace, minedHeights]
    split_ifs with hm
    · rfl
    · rw [GetMinedCommitmentsUntilBlock_loop_eq ext p GetAncestor maxCount
        (pindex.nHeight + 1).toNat pindex.nHeight [] rfl]
      simp
  have hmemR : ∀ h ∈ minedHeights ext p pindex maxCount,
      0 ≤ h ∧ h ≤ pindex.nHeight
      ∧ ext.inverseHeightDb.ExistsCache p.m_inverse_height_evoDb h = true
      ∧ (ext.inverseHeightDb.ReadCache p.m_inverse_height_evoDb h).isSome = true := by
    intro h hh
    simp only [minedHeights] at hh
    have h1 := List.mem_of_mem_take hh
    have h2 := List.mem_takeWhile_imp h1
    have h3 := (List.takeWhile_sublist _).subset h1
    rw [List.mem_filter] at h3
    have h4 := (heightsDown_mem _ _).1 h3.1
    exact ⟨h4.1, by omega, h3.2, h2⟩
  have hpwF : ((heightsDown (pindex.nHeight + 1).toNat).filter
      (fun h => ext.inverseHeightDb.ExistsCache p.m_inverse_height_evoDb h)).Pairwise
      (fun a b => a > b) :=
    (heightsDown_pairwise _).sublist (List.filter_sublist _)
  have hpwT := hpwF.sublist (List.takeWhile_sublist
    (fun h => (ext.inverseHeightDb.ReadCache p.m_inverse_height_evoDb h).isSome))
  have hpw : (minedHeights ext p pindex maxCount).Pairwise (fun a b => a > b) :=
    hpwT.sublist (List.take_sublist _ _)
  have hcomplete : ∀ h, 0 ≤ h → h ≤ pindex.nHeight →
      ext.inverseHeightDb.ExistsCache p.m_inverse_height_evoDb h = true →
      h ∈ minedHeights ext p pindex maxCount
      ∨ ((minedHeights ext p pindex maxCount).length = maxCount
          ∧ ∀ x ∈ minedHeights ext p pindex maxCount, h < x)
      ∨ (∃ h', h ≤ h' ∧ h' ≤ pindex.nHeight
          ∧ ext.inverseHeightDb.ExistsCache p.m_inverse_height_evoDb h' = true
          ∧ ext.inverseHeightDb.ReadCache p.m_inverse_height_evoDb h' = none
          ∧ ∀ x ∈ minedHeights ext p pindex maxCount, h' < x) := by
    intro h h0 hH hE
    have hin : h ∈ (heightsDown (pindex.nHeight + 1).toNat).filter
        (fun h => ext.inverseHeightDb.ExistsCache p.m_inverse_height_evoDb h) :=
      List.mem_filter.2 ⟨(heightsDown_mem _ _).2 ⟨h0, by omega⟩, hE⟩
    rcases takeWhile_complete
        (fun h => (ext.inverseHeightDb.ReadCache p.m_inverse_height_evoDb h).isSome)
        _ hpwF h hin with ht | ⟨h', hm, h1, h2, h3⟩
    · rcases take_complete _ maxCount hpwT h ht with hk | hk
      · exact Or.inl hk
      · exact Or.inr (Or.inl hk)
    · right; right
      rw [List.mem_filter] at hm
      have h4 := (heightsDown_mem _ _).1 hm.1
      refine ⟨h', h1, by omega, hm.2, ?_, ?_⟩
      · cases hr : ext.inverseHeightDb.ReadCache p.m_inverse_height_evoDb h' with
        | none => rfl
        | some q => simp [hr] at h2
      · intro x hx
        exact h3 x (List.mem_of_mem_take hx)
  refine ⟨htrace, ?_, ?_⟩
  · simp only [GetMinedCommitmentsUntilBlock, Option.map_eq_some', htrace]
    by_cases hm : maxCount > max_size
    · simp only [if_pos hm]
      constructor
      · rintro ⟨_, _, h, _⟩; cases h
      · rintro ⟨h, _⟩; omega
    · simp only [if_neg hm]
      have hiff := allSome_map_isSome (minedEntry ext p GetAncestor)
        (minedHeights ext p pindex maxCount)
      constructor
      · rintro ⟨_, tr, htr, _⟩
        refine ⟨by omega, fun h hh q hq => ?_⟩
        obtain ⟨b, hb⟩ := hiff.1 ⟨tr, htr⟩ h hh
        simp only [minedEntry, hq] at hb
        cases ha : GetAncestor q with
        | none => simp [ha] at hb
        | some idx => exact ⟨idx, rfl⟩
      · rintro ⟨_, hall⟩
        obtain ⟨tr, htr⟩ := hiff.2 (fun h hh => by
          obtain ⟨q, hq⟩ := Option.isSome_iff_exists.1 (hmemR h hh).2.2.2
          obtain ⟨idx, hidx⟩ := hall h hh q hq
          exact ⟨(h, idx), by simp [minedEntry, hq, hidx]⟩)
        exact ⟨_, tr, htr, rfl⟩
  · intro r hr
    simp only [GetMinedCommitmentsUntilBlock, Option.map_eq_some'] at hr
    obtain ⟨tr, htr, rfl⟩ := hr
    have htr' := htr
    rw [htrace] at htr'
    split_ifs at htr' with hm
    obtain ⟨hfst, hents⟩ := allSome_minedEntry ext p GetAncestor _ tr htr'
    have hlen : tr.length ≤ maxCount := by
      have h1 : (tr.map Prod.fst).length = (minedHeights ext p pindex maxCount).length := by
        rw [hfst]
      rw [List.length_map] at h1
      rw [h1]
      simp only [minedHeights, List.length_take]
      omega
    have hmemtr : ∀ e ∈ tr, e.1 ∈ minedHeights ext p pindex maxCount := by
      intro e he
      rw [← hfst]
      exact List.mem_map_of_mem Prod.fst he
    have hD : ∀ h, 0 ≤ h → h ≤ pindex.nHeight →
        ext.inverseHeightDb.ExistsCache p.m_inverse_height_evoDb h = true →
        h ∈ tr.map Prod.fst
        ∨ (tr.length = maxCount ∧ ∀ e ∈ tr, h < e.1)
        ∨ (∃ h', h ≤ h' ∧ h' ≤ pindex.nHeight
            ∧ ext.inverseHeightDb.ExistsCache p.m_inverse_height_evoDb h' = true
            ∧ ext.inverseHeightDb.ReadCache p.m_inverse_height_evoDb h' = none
            ∧ ∀ e ∈ tr, h' < e.1) := by
      intro h h0 hH hE
      rcases hcomplete h h0 hH hE with hk | ⟨hk1, hk2⟩ | ⟨h', h1, h2, h3, h4, h5⟩
      · left; rw [hfst]; exact hk
      · right; left
        refine ⟨?_, fun e he => hk2 _ (hmemtr e he)⟩
        rw [← hk1, ← hfst, List.length_map]
      · right; right
        exact ⟨h', h1, h2, h3, h4, fun e he => h5 _ (hmemtr e he)⟩
    refine ⟨by simpa using hlen, tr, htr, rfl, hfst, by rw [hfst]; exact hpw, ?_, hD, ?_⟩
    · intro e he
      have := hmemR e.1 (hmemtr e he)
      exact ⟨this.1, this.2.1, this.2.2.1, hents e he⟩
    · intro e rest hcons h h0 hH hE
      have hhead : ∀ x ∈ tr, x.1 ≤ e.1 := by
        intro x hx
        have hp : (tr.map Prod.fst).Pairwise (fun a b => a > b) := by rw [hfst]; exact hpw
        rw [hcons, List.map_cons, List.pairwise_cons] at hp
        rw [hcons] at hx
        rcases List.mem_cons.1 hx with e' | e'
        · rw [e']
        · have := hp.1 x.1 (List.mem_map_of_mem Prod.fst e'); omega
      have hein : e ∈ tr := by rw [hcons]; exact List.mem_cons_self _ _
      rcases hD h h0 hH hE with hk | ⟨_, hk⟩ | ⟨h', h1, _, _, _, h5⟩
      · obtain ⟨x, hx, rfl⟩ := List.mem_map.1 hk
        exact hhead x hx
      · have := hk e hein; omega
      · have := h5 e hein; omega

end

/-- Witness of C13: at height 12 a commitment of type 1 is required for the quorum hash
1000. With no minable commitment known the null commitment of version 1 is returned;
with the minable commitment of hash 55 known, that one is returned. -/
theorem GetMinableCommitment_spec_witness :
    GetMinableCommitment exampleExternals exampleOps exampleProcessor 1 12 ⟨0, 0, 0⟩
        = some (true, ⟨1, 1000, 1⟩)
    ∧ GetMinableCommitment exampleExternals exampleOps exampleProcessorMinable 1 12 ⟨0, 0, 0⟩
        = some (true, ⟨1, 1000, 9⟩) :=
  ⟨by
      obtain ⟨quorumHash, hg, _, hnull, _⟩ := (GetMinableCommitment_spec exampleExternals
        exampleOps exampleProcessor 1 12 ⟨0, 0, 0⟩).2 (by decide)
      have hg' : quorumHash = 1000 := by
        have : GetQuorumBlockHash exampleExternals 1 12 = some 1000 := by decide
        rw [this] at hg
        exact (Option.some.inj hg).symm
      subst hg'
      obtain ⟨params, hp, h⟩ := hnull (by decide)
      have hp' : params = ⟨1, 24, 10, 18⟩ := by
        have : mapAt exampleExternals.llmqs 1 = some ⟨1, 24, 10, 18⟩ := by decide
        rw [this] at hp
        exact (Option.some.inj hp).symm
      subst hp'
      exact h,
   by
      obtain ⟨quorumHash, hg, _, _, hstored, _⟩ := (GetMinableCommitment_spec exampleExternals
        exampleOps exampleProcessorMinable 1 12 ⟨0, 0, 0⟩).2 (by decide)
      have hg' : quorumHash = 1000 := by
        have : GetQuorumBlockHash exampleExternals 1 12 = some 1000 := by decide
        rw [this] at hg
        exact (Option.some.inj hg).symm
      subst hg'
      exact hstored 55 ⟨1, 1000, 9⟩ (by decide) (by decide)⟩

/-- Witness of C14: from height 10 with room for 5 entries, heights 7 and 3 being recorded
for the quorums of heights 5 and 0 and every quorum height having an ancestor, the call
returns the two quorum block indexes, the one found at height 7 first. -/
theorem GetMinedCommitmentsUntilBlock_spec_witness :
    (∃ r, GetMinedCommitmentsUntilBlock exampleExternals exampleProcessorMinable 1
        ⟨10, some 9⟩ (fun q => some ⟨q, none⟩) 1152921504606846975 5 = some r)
    ∧ ∃ tr, GetMinedCommitmentsUntilBlock.trace exampleExternals exampleProcessorMinable 1
          ⟨10, some 9⟩ (fun q => some ⟨q, none⟩) 1152921504606846975 5 = some tr
        ∧ ([⟨5, none⟩, ⟨0, none⟩] : List CBlockIndex) = tr.map Prod.snd
        ∧ tr.map Prod.fst = [7, 3] :=
  ⟨((GetMinedCommitmentsUntilBlock_spec exampleExternals exampleProcessorMinable 1
      ⟨10, some 9⟩ (fun q => some ⟨q, none⟩) 1152921504606846975 5).2.1).2
      ⟨by decide, fun _ _ _ _ => ⟨_, rfl⟩⟩,
   by
      obtain ⟨_, tr, htr, hsnd, hfst, _⟩ :=
        (GetMinedCommitmentsUntilBlock_spec exampleExternals exampleProcessorMinable 1
          ⟨10, some 9⟩ (fun q => some ⟨q, none⟩) 1152921504606846975 5).2.2
          [⟨5, none⟩, ⟨0, none⟩]
          (by simp [GetMinedCommitmentsUntilBlock, GetMinedCommitmentsUntilBlock.trace,
                GetMinedCommitmentsUntilBlock.loop, exampleExternals, exampleProcessorMinable,
                listDb, mapAt, mapErase])
      have hm : minedHeights exampleExternals exampleProcessorMinable ⟨10, some 9⟩ 5
          = [7, 3] := by decide
      exact ⟨tr, htr, hsnd, hfst.trans hm⟩⟩

end LLMQ

/-! ### `src/spork.cpp`: uniqueness of the active value -/

namespace Spork

theorem loop_cons (nMin : Int) (p : CKeyID × CSporkMessage)
    (rest : List (CKeyID × CSporkMessage)) (c : Int → Int) :
    SporkValueIsActive.loop nMin (p :: rest) c
      = if c p.2.nValue + 1 ≥ nMin then some p.2.nValue
        else SporkValueIsActive.loop nMin rest
          (fun v => if v = p.2.nValue then c v + 1 else c v) := by
  simp only [SporkValueIsActive.loop, if_true]

theorem loopRef_cons (nMin : Int) (p : CKeyID × CSporkMessage)
    (rest : List (CKeyID × CSporkMessage)) (c : Int → Int) (r0 : Int) :
    SporkValueIsActiveRef.loop nMin (p :: rest) c r0
      = if c p.2.nValue + 1 ≥ nMin then (true, p.2.nValue)
        else SporkValueIsActiveRef.loop nMin rest
          (fun v => if v = p.2.nValue then c v + 1 else c v) r0 := by
  simp only [SporkValueIsActiveRef.loop, if_true]

theorem SporkValueIsActiveRef_loop_eq (nMin : Int) (l : List (CKeyID × CSporkMessage))
    (c : Int → Int) (r0 : Int) :
    SporkValueIsActiveRef.loop nMin l c r0
      = match SporkValueIsActive.loop nMin l c with
        | some v => (true, v)
        | none => (false, r0) := by
  induction l generalizing c with
  | nil => rfl
  | cons p rest ih =>
    rw [loop_cons, loopRef_cons]
    by_cases h : c p.2.nValue + 1 ≥ nMin
    · rw [if_pos h, if_pos h]
    · rw [if_neg h, if_neg h]
      exact ih _

theorem votes_cons (p : CKeyID × CSporkMessage) (rest : List (CKeyID × CSporkMessage))
    (v : Int) :
    votes (p :: rest) v = votes rest v + (if p.2.nValue = v then 1 else 0) := by
  simp [votes, List.countP_cons]

theorem loop_some_votes (nMin : Int) (l : List (CKeyID × CSporkMessage)) :
    ∀ (c : Int → Int) (v : Int), SporkValueIsActive.loop nMin l c = some v →
      nMin ≤ c v + (votes l v : Int) := by
  induction l with
  | nil => intro c v h; simp [SporkValueIsActive.loop] at h
  | cons p rest ih =>
    intro c v h
    rw [loop_cons] at h
    by_cases hge : c p.2.nValue + 1 ≥ nMin
    · rw [if_pos hge] at h
      simp only [Option.some.injEq] at h
      subst h
      rw [votes_cons]
      simp only [if_true]
      push_cast
      omega
    · rw [if_neg hge] at h
      have := ih _ v h
      rw [votes_cons]
      by_cases hv : v = p.2.nValue
      · subst hv
        simp only [if_true] at this ⊢
        push_cast
        omega
      · have hv' : ¬ p.2.nValue = v := fun e => hv e.symm
        simp only [hv, hv', if_false] at this ⊢
        push_cast
        omega

theorem loop_none_votes (nMin : Int) (l : List (CKeyID × CSporkMessage)) :
    ∀ (c : Int → Int), SporkValueIsActive.loop nMin l c = none →
      ∀ v, v ∈ l.map (fun p => p.2.nValue) → c v + (votes l v : Int) < nMin := by
  induction l with
  | nil => intro c _ v hv; simp at hv
  | cons p rest ih =>
    intro c h v hv
    rw [loop_cons] at h
    by_cases hge : c p.2.nValue + 1 ≥ nMin
    · rw [if_pos hge] at h; cases h
    · rw [if_neg hge] at h
      have ih' := ih _ h
      rw [votes_cons]
      by_cases hmem : v ∈ rest.map (fun p => p.2.nValue)
      · have := ih' v hmem
        by_cases hvp : v = p.2.nValue
        · subst hvp
          simp only [if_true] at this ⊢
          push_cast
          omega
        · have hv' : ¬ p.2.nValue = v := fun e => hvp e.symm
          simp only [hvp, hv', if_false] at this ⊢
          push_cast
          omega
      · have hvp : v = p.2.nValue := by
          simp only [List.map_cons, List.mem_cons] at hv
          rcases hv with h1 | h1
          · exact h1
          · exact absurd h1 hmem
        subst hvp
        have h0 : votes rest p.2.nValue = 0 := by
          simp only [votes, List.countP_eq_zero, decide_eq_true_eq]
          intro q hq heq
          exact hmem (List.mem_map.2 ⟨q, hq, heq⟩)
        simp only [h0, if_true]
        push_cast
        omega

theorem votes_eq_zero_of_not_mem (l : List (CKeyID × CSporkMessage)) (v : Int)
    (h : v ∉ l.map (fun p => p.2.nValue)) : votes l v = 0 := by
  simp only [votes, List.countP_eq_zero, decide_eq_true_eq]
  intro q hq heq
  exact h (List.mem_map.2 ⟨q, hq, heq⟩)

theorem votes_add_le (l : List (CKeyID × CSporkMessage)) (v w : Int) (hvw : v ≠ w) :
    votes l v + votes l w ≤ l.length := by
  induction l with
  | nil => simp [votes]
  | cons p rest ih =>
    rw [votes_cons, votes_cons, List.length_cons]
    by_cases h1 : p.2.nValue = v
    · have h2 : ¬ p.2.nValue = w := fun e => hvw (h1.symm.trans e)
      rw [if_pos h1, if_neg h2]
      omega
    · by_cases h2 : p.2.nValue = w
      · rw [if_neg h1, if_pos h2]
        omega
      · rw [if_neg h1, if_neg h2]
        omega

theorem length_le_card (l : List (CKeyID × CSporkMessage)) (keys : Finset CKeyID)
    (hkeys : (l.map Prod.fst).Nodup) (hsub : ∀ p ∈ l, p.1 ∈ keys) :
    l.length ≤ keys.card := by
  have h1 : (l.map Prod.fst).toFinset.card = l.length := by
    rw [List.toFinset_card_of_nodup hkeys, List.length_map]
  rw [← h1]
  apply Finset.card_le_card
  intro k hk
  obtain ⟨p, hp, rfl⟩ := List.mem_map.1 (List.mem_toFinset.1 hk)
  exact hsub p hp

theorem loop_characterised (nMin : Int) (l : List (CKeyID × CSporkMessage))
    (hlen : (l.length : Int) < 2 * nMin) :
    (∀ v w, nMin ≤ (votes l v : Int) → nMin ≤ (votes l w : Int) → v = w)
    ∧ (∀ v, SporkValueIsActive.loop nMin l (fun _ => 0) = some v ↔ nMin ≤ (votes l v : Int)) := by
  have hpos : 0 < nMin := by
    have : (0 : Int) ≤ (l.length : Int) := Int.natCast_nonneg _
    omega
  have huniq : ∀ v w, nMin ≤ (votes l v : Int) → nMin ≤ (votes l w : Int) → v = w := by
    intro v w hv hw
    by_contra hne
    have h1 := votes_add_le l v w hne
    omega
  refine ⟨huniq, fun v => ⟨fun h => ?_, fun h => ?_⟩⟩
  · have := loop_some_votes nMin l _ v h
    simpa using this
  · cases hres : SporkValueIsActive.loop nMin l (fun _ => 0) with
    | some w =>
      have hw := loop_some_votes nMin l _ w hres
      simp only [zero_add] at hw
      rw [huniq w v hw h]
    | none =>
      exfalso
      by_cases hmem : v ∈ l.map (fun p => p.2.nValue)
      · have := loop_none_votes nMin l _ hres v hmem
        simp only [zero_add] at this
        omega
      · rw [votes_eq_zero_of_not_mem l v hmem] at h
        simp only [Nat.cast_zero] at h
        omega

theorem SporkValueIsActiveRef_eq (s : CSporkManager) (nSporkID : Int) (r0 : Int) :
    SporkValueIsActiveRef s nSporkID r0
      = match SporkValueIsActive.loop s.nMinSporkKeys
            ((find s.mapSporksActive nSporkID).getD []) (fun _ => 0) with
        | some v => (true, v)
        | none => (false, r0) := by
  unfold SporkValueIsActiveRef
  cases find s.mapSporksActive nSporkID with
  | none => rfl
  | some signers => exact SporkValueIsActiveRef_loop_eq _ _ _ _

/-- C19: let `signers` be the signer map recorded for a spork ID (one entry per signer,
every signer one of the spork keys), and let `nMinSporkKeys` be greater than half the
number of spork keys. Then at most one value is voted by at least `nMinSporkKeys`
signers; `SporkValueIsActive` returns true exactly when such a value exists, and then
`nActiveValueRet` is that value; when it returns false `nActiveValueRet` is left
unchanged; and the result is the same for every iteration order of the signer map. -/
theorem SporkValueIsActive_unique (s : CSporkManager) (nSporkID : Int)
    (signers : List (CKeyID × CSporkMessage))
    (hs : (find s.mapSporksActive nSporkID).getD [] = signers)
    (hkeys : (signers.map Prod.fst).Nodup)
    (hsub : ∀ p ∈ signers, p.1 ∈ s.setSporkPubKeyIDs)
    (hmin : (s.setSporkPubKeyIDs.card : Int) < 2 * s.nMinSporkKeys) :
    (∀ v w, s.nMinSporkKeys ≤ (votes signers v : Int) →
        s.nMinSporkKeys ≤ (votes signers w : Int) → v = w)
    ∧ (∀ r0, (SporkValueIsActiveRef s nSporkID r0).1 = true
        ↔ ∃ v, s.nMinSporkKeys ≤ (votes signers v : Int))
    ∧ (∀ r0 v, s.nMinSporkKeys ≤ (votes signers v : Int) →
        SporkValueIsActiveRef s nSporkID r0 = (true, v))
    ∧ (∀ r0, (SporkValueIsActiveRef s nSporkID r0).1 = false →
        (SporkValueIsActiveRef s nSporkID r0).2 = r0)
    ∧ (∀ (s₂ : CSporkManager) (signers₂ : List (CKeyID × CSporkMessage)) (r0 : Int),
        s₂.nMinSporkKeys = s.nMinSporkKeys →
        (find s₂.mapSporksActive nSporkID).getD [] = signers₂ →
        signers₂.Perm signers →
        SporkValueIsActiveRef s₂ nSporkID r0 = SporkValueIsActiveRef s nSporkID r0) := by
  have hlen : (signers.length : Int) < 2 * s.nMinSporkKeys := by
    have := length_le_card signers s.setSporkPubKeyIDs hkeys hsub
    omega
  obtain ⟨huniq, hchar⟩ := loop_characterised s.nMinSporkKeys signers hlen
  have hval : ∀ r0 v, s.nMinSporkKeys ≤ (votes signers v : Int) →
      SporkValueIsActiveRef s nSporkID r0 = (true, v) := by
    intro r0 v hv
    rw [SporkValueIsActiveRef_eq, hs, (hchar v).2 hv]
  refine ⟨huniq, ?_, hval, ?_, ?_⟩
  · intro r0
    constructor
    · intro h
      rw [SporkValueIsActiveRef_eq, hs] at h
      cases hres : SporkValueIsActive.loop s.nMinSporkKeys signers (fun _ => 0) with
      | none => rw [hres] at h; cases h
      | some v => exact ⟨v, (hchar v).1 hres⟩
    · rintro ⟨v, hv⟩
      rw [hval r0 v hv]
  · intro r0 h
    rw [SporkValueIsActiveRef_eq, hs] at h ⊢
    cases hres : SporkValueIsActive.loop s.nMinSporkKeys signers (fun _ => 0) with
    | none => rfl
    | some v => rw [hres] at h; cases h
  · intro s₂ signers₂ r0 hn hs₂ hperm
    have hvotes : ∀ v, votes signers₂ v = votes signers v := fun v => hperm.countP_eq _
    have hlen₂ : (signers₂.length : Int) < 2 * s.nMinSporkKeys := by
      rw [hperm.length_eq]; exact hlen
    obtain ⟨_, hchar₂⟩ := loop_characterised s.nMinSporkKeys signers₂ hlen₂
    rw [SporkValueIsActiveRef_eq, SporkValueIsActiveRef_eq, hs, hs₂, hn]
    cases hres : SporkValueIsActive.loop s.nMinSporkKeys signers (fun _ => 0) with
    | some v =>
      have hv := (hchar v).1 hres
      rw [← hvotes] at hv
      rw [(hchar₂ v).2 hv]
    | none =>
      cases hres₂ : SporkValueIsActive.loop s.nMinSporkKeys signers₂ (fun _ => 0) with
      | none => rfl
      | some v =>
        have hv := (hchar₂ v).1 hres₂
        rw [hvotes] at hv
        rw [(hchar v).2 hv] at hres
        cases hres

/-- Witness of C19: three spork keys, `nMinSporkKeys` 2, and signers 1 and 3 voting the
value 7 while signer 2 votes 9: the active value is 7. -/
theorem SporkValueIsActive_unique_witness :
    SporkValueIsActiveRef
        ⟨[(10005, [(1, ⟨10005, 7, 0⟩), (2, ⟨10005, 9, 0⟩), (3, ⟨10005, 7, 0⟩)])], {1, 2, 3}, 2⟩
        10005 (-1) = (true, 7) :=
  (SporkValueIsActive_unique
    ⟨[(10005, [(1, ⟨10005, 7, 0⟩), (2, ⟨10005, 9, 0⟩), (3, ⟨10005, 7, 0⟩)])], {1, 2, 3}, 2⟩
    10005 [(1, ⟨10005, 7, 0⟩), (2, ⟨10005, 9, 0⟩), (3, ⟨10005, 7, 0⟩)]
    rfl (by decide) (by decide) (by decide)).2.2.1 (-1) 7 (by decide)

end Spork

/-! ### `src/wallet/test/coinselection_tests.cpp` -/

namespace CoinSelectionTests

theorem mismatch_eq_none (a b : List Int) :
    mismatch a b = none ↔ ∃ t, t ≠ [] ∧ a = b ++ t := by
  induction a generalizing b with
  | nil =>
    simp only [mismatch, reduceCtorEq, false_iff, not_exists, not_and]
    intro t ht h
    have := congrArg List.length h
    simp only [List.length_nil, List.length_append] at this
    exact ht (List.length_eq_zero.1 (by omega))
  | cons x xs ih =>
    cases b with
    | nil => simp [mismatch]
    | cons y ys =>
      simp only [mismatch]
      by_cases hxy : x = y
      · subst hxy
        simp only [if_true, Option.map_eq_none', ih, List.cons_append, List.cons.injEq,
          true_and]
      · simp only [hxy, if_false, reduceCtorEq, List.cons_append, List.cons.injEq, false_and,
          and_false, exists_false]

theorem mismatch_some (a b : List Int) (ret : Nat × Nat) (h : mismatch a b = some ret) :
    (ret.1 = a.length ∧ ret.2 = b.length) ↔ a = b := by
  induction a generalizing b ret with
  | nil =>
    simp only [mismatch, Option.some.injEq] at h
    subst h
    cases b <;> simp
  | cons x xs ih =>
    cases b with
    | nil => simp [mismatch] at h
    | cons y ys =>
      simp only [mismatch] at h
      by_cases hxy : x = y
      · subst hxy
        simp only [if_true, Option.map_eq_some'] at h
        obtain ⟨r, hr, rfl⟩ := h
        have := ih ys r hr
        simp only [List.length_cons, add_left_inj, List.cons.injEq, true_and]
        exact this
      · simp only [hxy, if_false, Option.some.injEq] at h
        subst h
        simp [hxy]

/-- Where `EquivalentResult` stays inside `b_amts` it does what its comment says: it
returns true exactly when the two selections have the same input values as multisets.
It leaves `b_amts` exactly when the sorted values of `b` are a proper initial part of the
sorted values of `a`. -/
theorem EquivalentResult_defined (a b : SelectionResult) :
    (EquivalentResult a b = some true
        ↔ (a.GetInputSet.map (fun coin => coin.nValue)).Perm
            (b.GetInputSet.map (fun coin => coin.nValue)))
    ∧ (EquivalentResult a b = none
        ↔ ∃ t, t ≠ [] ∧ (a.GetInputSet.map (fun coin => coin.nValue)).insertionSort (· ≤ ·)
            = (b.GetInputSet.map (fun coin => coin.nValue)).insertionSort (· ≤ ·) ++ t) := by
  constructor
  · simp only [EquivalentResult]
    cases hm : mismatch ((a.GetInputSet.map (fun coin => coin.nValue)).insertionSort (· ≤ ·))
        ((b.GetInputSet.map (fun coin => coin.nValue)).insertionSort (· ≤ ·)) with
    | none =>
      simp only [reduceCtorEq, false_iff]
      intro hperm
      obtain ⟨t, ht, heq⟩ := (mismatch_eq_none _ _).1 hm
      have h1 : ((a.GetInputSet.map (fun coin => coin.nValue)).insertionSort (· ≤ ·)).length
          = ((b.GetInputSet.map (fun coin => coin.nValue)).insertionSort (· ≤ ·)).length := by
        rw [List.length_insertionSort, List.length_insertionSort]
        exact hperm.length_eq
      rw [heq, List.length_append] at h1
      exact ht (List.length_eq_zero.1 (by omega))
    | some ret =>
      simp only [Option.some.injEq, Bool.and_eq_true, decide_eq_true_eq]
      rw [mismatch_some _ _ ret hm]
      constructor
      · intro heq
        have h1 := (List.perm_insertionSort (· ≤ ·)
          (a.GetInputSet.map (fun coin => coin.nValue))).symm
        rw [heq] at h1
        exact h1.trans (List.perm_insertionSort _ _)
      · intro hperm
        exact List.eq_of_perm_of_sorted
          (((List.perm_insertionSort _ _).trans hperm).trans (List.perm_insertionSort _ _).symm)
          (List.sorted_insertionSort _ _) (List.sorted_insertionSort _ _)
  · simp only [EquivalentResult]
    rw [← mismatch_eq_none]
    cases mismatch ((a.GetInputSet.map (fun coin => coin.nValue)).insertionSort (· ≤ ·))
        ((b.GetInputSet.map (fun coin => coin.nValue)).insertionSort (· ≤ ·)) <;> simp

/-- C20 (failing input): for a selection `a` with input values 1 and 2 and a selection
`b` with the single input value 1, `std::mismatch` finds `a_amts[0] == b_amts[0]` and then
reads `b_amts[1]`, past the end of `b_amts`: `EquivalentResult` has no defined result,
where the claim has it return false without reading past the end. -/
theorem EquivalentResult_reads_past_end :
    EquivalentResult ⟨[⟨1⟩, ⟨2⟩]⟩ ⟨[⟨1⟩]⟩ = none
    ∧ EquivalentResult ⟨[⟨1⟩]⟩ ⟨[⟨1⟩, ⟨2⟩]⟩ = some false := by
  decide

end CoinSelectionTests

end DragonCoin
